import Mathlib

/-!
Formal model of the orchestrator core of the `background-agents` repository.

The TypeScript sources are shallowly embedded as executable Lean definitions:

* `packages/cli/src/orchestrator/dag.ts` — DAG validation (`validateDag`,
  Tarjan-based `detectCycles`), wave partitioning (`computeWaves`) and
  depth-first `topologicalSort`;
* `packages/cli/src/util/json-extractor.ts` — `extractJson` with its code-fence
  regex and balanced-delimiter scanner, over a model of `JSON.parse`;
* `packages/cli/src/util/retry.ts` — the retry loop;
* `packages/cli/src/state/project.ts` — project persistence;
* the planner / integrator poll loops and the execution scheduler loop.

JavaScript idioms are modelled explicitly: `Map` and `Set` become association
lists, recursion that the runtime bounds only by the call stack becomes
fuel-indexed recursion (with `none` signalling divergence or a thrown
`TypeError`), thrown exceptions become `Except`/`Option` results, and
truthiness tests on optional strings are spelled out.
-/

/-- Truthiness of a nullable JS string: `null`/`undefined` and `""` are falsy. -/
def strTruthy : Option String → Bool
  | none => false
  | some s => s ≠ ""

/-- Association-list lookup used to model `Map.get`: first binding wins, so
maps built by prepending model `Map.set` overwriting earlier bindings. -/
def alistGet {α : Type} (l : List (String × α)) (k : String) : Option α :=
  (l.find? (fun p => p.1 = k)).map (fun p => p.2)

/-- Model of `new Map(pairs)` / repeated `Map.set`: later entries shadow
earlier ones, so we prepend while folding from the left. -/
def alistOf {α : Type} (pairs : List (String × α)) : List (String × α) :=
  pairs.foldl (fun m p => p :: m) []

/-! ## Data model (`packages/cli/src/state/types.ts`) -/

/-- Task complexity enum from `types.ts`. -/
inductive Complexity where
  | small
  | medium
  | large
deriving DecidableEq

/-- A plan task node (`TaskNode` in `types.ts`). -/
structure TaskNode where
  id : String
  title : String
  description : String
  fileScope : List String
  dependsOn : List String
  complexity : Complexity
deriving DecidableEq

/-- A plan (`Plan` in `types.ts`). -/
structure Plan where
  summary : String
  tasks : List TaskNode
deriving DecidableEq

/-- Task execution status union from `types.ts`. -/
inductive TaskStatus where
  | pending
  | running
  | completed
  | failed
  | skipped
deriving DecidableEq

/-- Per-task execution record (`TaskExecution` in `types.ts`). -/
structure TaskExecution where
  taskId : String
  status : TaskStatus
  sessionId : Option String
  branchName : Option String
  startedAt : Option Nat
  completedAt : Option Nat
  summary : Option String
  error : Option String
  retryCount : Nat
deriving DecidableEq

/-- Project phase union from `types.ts`. -/
inductive ProjectPhase where
  | planning
  | approval
  | executing
  | integrating
  | completed
  | failed
deriving DecidableEq

/-- Status union shared by the planning and integration sub-states. -/
inductive SubStatus where
  | pending
  | running
  | completed
  | failed
deriving DecidableEq

/-- Planning sub-state (`PlanningState` in `types.ts`); a missing `error`
key is `none`. -/
structure PlanningState where
  sessionId : Option String
  model : String
  status : SubStatus
  error : Option String
deriving DecidableEq

/-- Integration sub-state (`IntegrationState` in `types.ts`). -/
structure IntegrationState where
  sessionId : Option String
  status : SubStatus
  mergedBranch : Option String
  prUrl : Option String
  error : Option String
deriving DecidableEq

/-- The persisted project record (`ProjectState` in `types.ts`). The
`tasks` map keeps JS object key-insertion order, so it is a list of
key/record pairs. -/
structure ProjectState where
  id : String
  createdAt : Nat
  updatedAt : Nat
  goal : String
  repoOwner : String
  repoName : String
  phase : ProjectPhase
  planning : PlanningState
  plan : Option Plan
  tasks : List (String × TaskExecution)
  integration : IntegrationState
deriving DecidableEq

/-! ## Graph engine (`packages/cli/src/orchestrator/dag.ts`) -/

/-- Result record of `validateDag`. -/
structure ValidationResult where
  valid : Bool
  errors : List String
deriving DecidableEq

/-- Duplicate-id scan of `validateDag` (the `seen` set loop): one error per
re-occurrence of an id, in input order. -/
def dupIdErrors : List String → List TaskNode → List String
  | _, [] => []
  | seen, t :: ts =>
    (if seen.contains t.id then ["Duplicate task ID: \"" ++ t.id ++ "\""] else [])
      ++ dupIdErrors (t.id :: seen) ts

/-- Unknown-dependency scan of `validateDag`: for each task, each dependency
id absent from the id set yields one error. -/
def unknownDepErrors (tasks : List TaskNode) : List String :=
  let ids := tasks.map (fun t => t.id)
  tasks.flatMap (fun t =>
    t.dependsOn.filterMap (fun dep =>
      if ids.contains dep then none
      else some ("Task \"" ++ t.id ++ "\" depends on unknown task \"" ++ dep ++ "\"")))

/-- Mutable state of Tarjan's algorithm in `detectCycles`: the running index,
the `indices` and `lowlinks` maps, the `onStack` set, the stack (top first)
and the collected `cycleNodes`. -/
structure TarjanState where
  idx : Nat
  indices : List (String × Nat)
  lowlinks : List (String × Nat)
  onStack : List String
  stack : List String
  cycleNodes : List String

/-- The do/while pop loop closing an SCC root in `strongConnect`: pop stack
entries (and drop them from `onStack`) into `component` until `id` is popped. -/
def popComponent (id : String) : List String → List String → List String →
    List String × List String × List String
  | [], onS, comp => ([], onS, comp)
  | w :: rest, onS, comp =>
    if w = id then (rest, onS.erase w, comp ++ [w])
    else popComponent id rest (onS.erase w) (comp ++ [w])

/-- The `strongConnect` recursion of `detectCycles`, fuel-indexed (the fuel
chosen in `detectCycles` strictly exceeds every possible recursion depth, so
the zero-fuel branch is unreachable there). -/
def strongConnect (adj : List (String × List String)) :
    Nat → String → TarjanState → TarjanState
  | 0, _, st => st
  | fuel + 1, id, st0 =>
    let st1 : TarjanState :=
      { st0 with
        indices := (id, st0.idx) :: st0.indices
        lowlinks := (id, st0.idx) :: st0.lowlinks
        idx := st0.idx + 1
        stack := id :: st0.stack
        onStack := id :: st0.onStack }
    let deps := (alistGet adj id).getD []
    let st2 := deps.foldl
      (fun st dep =>
        if (alistGet st.indices dep).isNone then
          let st' := strongConnect adj fuel dep st
          { st' with
            lowlinks :=
              (id, min ((alistGet st'.lowlinks id).getD 0)
                ((alistGet st'.lowlinks dep).getD 0)) :: st'.lowlinks }
        else if st.onStack.contains dep then
          { st with
            lowlinks :=
              (id, min ((alistGet st.lowlinks id).getD 0)
                ((alistGet st.indices dep).getD 0)) :: st.lowlinks }
        else st)
      st1
    if alistGet st2.lowlinks id = alistGet st2.indices id then
      let popped := popComponent id st2.stack st2.onStack []
      { st2 with
        stack := popped.1
        onStack := popped.2.1
        cycleNodes :=
          if popped.2.2.length > 1 then st2.cycleNodes ++ popped.2.2
          else st2.cycleNodes }
    else st2

/-- Cycle detection of `dag.ts` (`detectCycles`): Tarjan's SCC algorithm; only
components of size strictly greater than one contribute to `cycleNodes`. -/
def detectCycles (tasks : List TaskNode) : List String :=
  let adj := alistOf (tasks.map (fun t => (t.id, t.dependsOn)))
  let fuel := tasks.length + (tasks.map (fun t => t.dependsOn.length)).sum + 1
  let final := tasks.foldl
    (fun st t =>
      if (alistGet st.indices t.id).isNone then strongConnect adj fuel t.id st
      else st)
    ⟨0, [], [], [], [], []⟩
  final.cycleNodes

/-- Structural validation of `dag.ts` (`validateDag`): duplicate ids, unknown
dependency references, then one error naming all `cycleNodes` when Tarjan
reports any. -/
def validateDag (tasks : List TaskNode) : ValidationResult :=
  let cycleNodes := detectCycles tasks
  let errors :=
    dupIdErrors [] tasks ++ unknownDepErrors tasks ++
      (if cycleNodes.length > 0 then
        ["Cycle detected involving tasks: " ++ String.intercalate ", " cycleNodes]
      else [])
  ⟨errors.isEmpty, errors⟩

/-- The memoised `getWave` recursion of `computeWaves`, fuel-indexed: the wave
of a task is `0` without dependencies, otherwise one plus the maximum wave of
its dependencies. `none` models the unbounded recursion (cyclic input) or the
`TypeError` on an unresolvable id; memoisation does not change the value. -/
def waveF (tm : List (String × TaskNode)) : Nat → String → Option Nat
  | 0, _ => none
  | fuel + 1, id => do
    let t ← alistGet tm id
    if t.dependsOn.isEmpty then some 0
    else do
      let ws ← t.dependsOn.mapM (waveF tm fuel)
      some (ws.foldl max 0 + 1)

/-- Wave partitioning of `dag.ts` (`computeWaves`): group `i` collects, in
input order, exactly the tasks whose wave equals `i`; the number of groups is
one plus the largest wave (and `[]` for no tasks). -/
def computeWaves (tasks : List TaskNode) : Option (List (List TaskNode)) := do
  let tm := alistOf (tasks.map (fun t => (t.id, t)))
  let fuel := tasks.length + 1
  let ws ← tasks.mapM (fun t => waveF tm fuel t.id)
  if tasks.isEmpty then some []
  else
    some ((List.range (ws.foldl max 0 + 1)).map
      (fun w => tasks.filter (fun t => waveF tm fuel t.id = some w)))

/-- State threaded through the depth-first `visit` of `topologicalSort`. -/
structure TopoState where
  visited : List String
  result : List TaskNode
deriving DecidableEq

/-- The `visit` recursion of `topologicalSort`, fuel-indexed: skip visited
ids, otherwise mark visited, visit each dependency, then append the task.
`none` models fuel exhaustion (unreachable for the chosen fuel) or the
`TypeError` on an unresolvable id. -/
def visitF (tm : List (String × TaskNode)) : Nat → String → TopoState → Option TopoState
  | 0, _, _ => none
  | fuel + 1, id, st =>
    if st.visited.contains id then some st
    else do
      let t ← alistGet tm id
      let st1 : TopoState := { st with visited := id :: st.visited }
      let st2 ← t.dependsOn.foldlM (fun s d => visitF tm fuel d s) st1
      some { st2 with result := st2.result ++ [t] }

/-- Depth-first topological sort of `dag.ts` (`topologicalSort`):
dependencies are emitted before dependents. -/
def topologicalSort (tasks : List TaskNode) : Option (List TaskNode) := do
  let tm := alistOf (tasks.map (fun t => (t.id, t)))
  let st ← tasks.foldlM (fun s t => visitF tm (tasks.length + 2) t.id s) ⟨[], []⟩
  some st.result

/-- Shorthand used throughout the test-style sanity checks below. -/
def mkTask (id : String) (deps : List String) : TaskNode :=
  ⟨id, "Task " ++ id, "Description for " ++ id, ["src/" ++ id], deps, Complexity.medium⟩

example : validateDag [] = ⟨true, []⟩ := by decide
example : (validateDag [mkTask "t1" [], mkTask "t2" ["t1"], mkTask "t3" ["t2"]]).valid = true := by
  decide
example : (validateDag [mkTask "t1" [], mkTask "t1" []]).errors
    = ["Duplicate task ID: \"t1\""] := by decide
example : (validateDag [mkTask "t1" ["t99"]]).errors
    = ["Task \"t1\" depends on unknown task \"t99\""] := by decide
example : (validateDag [mkTask "t1" ["t2"], mkTask "t2" ["t1"]]).errors
    = ["Cycle detected involving tasks: t2, t1"] := by decide
example : (validateDag [mkTask "t1" ["t3"], mkTask "t2" ["t1"], mkTask "t3" ["t2"]]).valid
    = false := by decide
example :
    computeWaves [mkTask "t1" [], mkTask "t2" ["t1"], mkTask "t3" ["t1"],
        mkTask "t4" ["t2", "t3"]]
      = some [[mkTask "t1" []], [mkTask "t2" ["t1"], mkTask "t3" ["t1"]],
          [mkTask "t4" ["t2", "t3"]]] := by decide
example :
    topologicalSort [mkTask "t3" ["t2"], mkTask "t2" ["t1"], mkTask "t1" []]
      = some [mkTask "t1" [], mkTask "t2" ["t1"], mkTask "t3" ["t2"]] := by decide

example : validateDag [mkTask "t1" ["t1"]] = ⟨true, []⟩ := by decide

/-! ## JSON values and a model of `JSON.parse`

`json-extractor.ts` and `project.ts` delegate to the JavaScript runtime's
`JSON.parse`/`JSON.stringify`. We model JSON values as a tree (`Json`) and
`JSON.parse` as a strict RFC 8259 recursive-descent parser over that tree.
Numbers are modelled exactly as rationals instead of IEEE doubles, and string
escapes cover the JSON escape set with `\uXXXX` surrogate pairs combined
(lone surrogates are rejected rather than kept, the one divergence from
UTF-16 JavaScript strings). -/

/-- A JSON value as produced by `JSON.parse`. Object member lists keep JS
key order; duplicate keys are collapsed during parsing exactly as `JSON.parse`
does (first position, last value). -/
inductive Json where
  | null
  | bool (b : Bool)
  | num (q : Rat)
  | str (s : String)
  | arr (elems : List Json)
  | obj (members : List (String × Json))

/-- The left brace character, kept out of string literals. -/
def lbrace : Char := Char.ofNat 123

/-- The right brace character, kept out of string literals. -/
def rbrace : Char := Char.ofNat 125

/-- The backtick character. -/
def btick : Char := Char.ofNat 96

/-- JSON's whitespace class (space, tab, line feed, carriage return). -/
def jsonWs (c : Char) : Bool :=
  c = ' ' || c = '\t' || c = '\n' || c = '\r'

/-- Hexadecimal digit value. -/
def hexVal (c : Char) : Option Nat :=
  if '0' ≤ c ∧ c ≤ '9' then some (c.toNat - 48)
  else if 'a' ≤ c ∧ c ≤ 'f' then some (c.toNat - 87)
  else if 'A' ≤ c ∧ c ≤ 'F' then some (c.toNat - 55)
  else none

/-- Numeric value of a digit string (most significant first). -/
def natOfDigits (ds : List Char) : Nat :=
  ds.foldl (fun n c => n * 10 + (c.toNat - 48)) 0

/-- Object-member insertion of `JSON.parse`: an existing key keeps its
position and receives the new value, a fresh key is appended. -/
def insertMember (k : String) (v : Json) : List (String × Json) → List (String × Json)
  | [] => [(k, v)]
  | (k', v') :: ms => if k' = k then (k, v) :: ms else (k', v') :: insertMember k v ms

/-- Body of a JSON string literal (after the opening quote): ordinary
characters up to the closing quote, with the JSON escape set; raw control
characters are a syntax error. -/
def parseStrBody : Nat → List Char → List Char → Option (String × List Char)
  | 0, _, _ => none
  | fuel + 1, acc, s =>
    match s with
    | [] => none
    | c :: r =>
      if c = '"' then some (String.mk acc.reverse, r)
      else if c = '\\' then
        match r with
        | [] => none
        | e :: r' =>
          if e = '"' then parseStrBody fuel ('"' :: acc) r'
          else if e = '\\' then parseStrBody fuel ('\\' :: acc) r'
          else if e = '/' then parseStrBody fuel ('/' :: acc) r'
          else if e = 'b' then parseStrBody fuel (Char.ofNat 8 :: acc) r'
          else if e = 'f' then parseStrBody fuel (Char.ofNat 12 :: acc) r'
          else if e = 'n' then parseStrBody fuel ('\n' :: acc) r'
          else if e = 'r' then parseStrBody fuel ('\r' :: acc) r'
          else if e = 't' then parseStrBody fuel ('\t' :: acc) r'
          else if e = 'u' then
            match r' with
            | h1 :: h2 :: h3 :: h4 :: r'' => do
              let n1 ← hexVal h1
              let n2 ← hexVal h2
              let n3 ← hexVal h3
              let n4 ← hexVal h4
              let code := ((n1 * 16 + n2) * 16 + n3) * 16 + n4
              if 0xD800 ≤ code ∧ code < 0xDC00 then
                match r'' with
                | b1 :: b2 :: g1 :: g2 :: g3 :: g4 :: r''' => do
                  if b1 = '\\' ∧ b2 = 'u' then do
                    let m1 ← hexVal g1
                    let m2 ← hexVal g2
                    let m3 ← hexVal g3
                    let m4 ← hexVal g4
                    let lo := ((m1 * 16 + m2) * 16 + m3) * 16 + m4
                    if 0xDC00 ≤ lo ∧ lo < 0xE000 then
                      let cp := 0x10000 + (code - 0xD800) * 0x400 + (lo - 0xDC00)
                      parseStrBody fuel (Char.ofNat cp :: acc) r'''
                    else none
                  else none
                | _ => none
              else if 0xDC00 ≤ code ∧ code < 0xE000 then none
              else parseStrBody fuel (Char.ofNat code :: acc) r''
            | _ => none
          else none
      else if c.toNat < 0x20 then none
      else parseStrBody fuel (c :: acc) r

/-- JSON number literal: optional sign, integer part without leading zeros,
optional fraction and exponent; the exact rational value. -/
def parseNumber (s : List Char) : Option (Rat × List Char) :=
  let (neg, s1) : Bool × List Char :=
    match s with
    | '-' :: r => (true, r)
    | _ => (false, s)
  let intDigits := s1.takeWhile Char.isDigit
  let s2 := s1.dropWhile Char.isDigit
  if intDigits.isEmpty then none
  else if intDigits.length > 1 ∧ intDigits.head? = some '0' then none
  else do
    let fracPart : Option (List Char × List Char) :=
      match s2 with
      | '.' :: r =>
        let fd := r.takeWhile Char.isDigit
        if fd.isEmpty then none else some (fd, r.dropWhile Char.isDigit)
      | _ => some ([], s2)
    let (fracDigits, s3) ← fracPart
    let expPart : Option (Int × List Char) :=
      match s3 with
      | e :: r =>
        if e = 'e' ∨ e = 'E' then
          let (eneg, r1) : Bool × List Char :=
            match r with
            | '-' :: r' => (true, r')
            | '+' :: r' => (false, r')
            | _ => (false, r)
          let ed := r1.takeWhile Char.isDigit
          if ed.isEmpty then none
          else some (if eneg then -(natOfDigits ed : Int) else (natOfDigits ed : Int),
            r1.dropWhile Char.isDigit)
        else some (0, s3)
      | [] => some (0, s3)
    let (expVal, s4) ← expPart
    let mantissa : Int := natOfDigits intDigits * 10 ^ fracDigits.length + natOfDigits fracDigits
    let signed : Int := if neg then -mantissa else mantissa
    let q : Rat :=
      if expVal ≥ 0 then mkRat (signed * 10 ^ expVal.toNat) (10 ^ fracDigits.length)
      else mkRat signed (10 ^ fracDigits.length * 10 ^ (-expVal).toNat)
    some (q, s4)

/-- Literal keyword match. -/
def expectChars (lit : List Char) (s : List Char) : Option (List Char) :=
  if lit.isPrefixOf s then some (s.drop lit.length) else none

mutual

/-- One JSON value, preceded by optional whitespace (a model of the
`JSON.parse` element grammar); returns the value and the unconsumed rest. -/
def parseValue : Nat → List Char → Option (Json × List Char)
  | 0, _ => none
  | fuel + 1, s0 =>
    let s := s0.dropWhile jsonWs
    match s with
    | [] => none
    | c :: rest =>
      if c = 'n' then (expectChars ['u', 'l', 'l'] rest).map (fun r => (Json.null, r))
      else if c = 't' then (expectChars ['r', 'u', 'e'] rest).map (fun r => (Json.bool true, r))
      else if c = 'f' then
        (expectChars ['a', 'l', 's', 'e'] rest).map (fun r => (Json.bool false, r))
      else if c = '"' then
        (parseStrBody (rest.length + 1) [] rest).map (fun p => (Json.str p.1, p.2))
      else if c = '-' ∨ c.isDigit then (parseNumber s).map (fun p => (Json.num p.1, p.2))
      else if c = '[' then
        let s1 := rest.dropWhile jsonWs
        match s1 with
        | ']' :: r1 => some (Json.arr [], r1)
        | _ => (parseItems fuel s1).map (fun p => (Json.arr p.1, p.2))
      else if c = lbrace then
        let s1 := rest.dropWhile jsonWs
        match s1 with
        | c1 :: r1 => if c1 = rbrace then some (Json.obj [], r1) else parseMembers fuel s1 []
        | [] => none
      else none

/-- Comma-separated array items after `[`. -/
def parseItems : Nat → List Char → Option (List Json × List Char)
  | 0, _ => none
  | fuel + 1, s => do
    let (v, r) ← parseValue fuel s
    let r1 := r.dropWhile jsonWs
    match r1 with
    | ']' :: r2 => some ([v], r2)
    | ',' :: r2 => do
      let (vs, r3) ← parseItems fuel r2
      some (v :: vs, r3)
    | _ => none

/-- Comma-separated object members after the opening brace, collapsing
duplicate keys the way `JSON.parse` does. -/
def parseMembers : Nat → List Char → List (String × Json) → Option (Json × List Char)
  | 0, _, _ => none
  | fuel + 1, s, acc =>
    let s1 := s.dropWhile jsonWs
    match s1 with
    | '"' :: r => do
      let (k, r1) ← parseStrBody (r.length + 1) [] r
      let r2 := r1.dropWhile jsonWs
      match r2 with
      | ':' :: r3 => do
        let (v, r4) ← parseValue fuel r3
        let acc' := insertMember k v acc
        let r5 := r4.dropWhile jsonWs
        match r5 with
        | c :: r6 =>
          if c = rbrace then some (Json.obj acc', r6)
          else if c = ',' then parseMembers fuel r6 acc'
          else none
        | [] => none
      | _ => none
    | _ => none

end

/-- Model of `JSON.parse` on character lists: one value, possibly surrounded
by whitespace, and nothing else. -/
def parseJsonL (s : List Char) : Option Json := do
  let (v, rest) ← parseValue (2 * s.length + 4) s
  if (rest.dropWhile jsonWs).isEmpty then some v else none

/-- Model of `JSON.parse` on strings. -/
def parseJson (s : String) : Option Json := parseJsonL s.toList

/-! ## Output extractor (`packages/cli/src/util/json-extractor.ts`) -/

/-- The whitespace class of JavaScript's regex `\s` and `String.trim`. -/
def isJsSpace (c : Char) : Bool :=
  let n := c.toNat
  n = 0x20 || n = 0x09 || n = 0x0A || n = 0x0B || n = 0x0C || n = 0x0D ||
    n = 0xA0 || n = 0x1680 || (0x2000 ≤ n && n ≤ 0x200A) || n = 0x2028 ||
    n = 0x2029 || n = 0x202F || n = 0x205F || n = 0x3000 || n = 0xFEFF

/-- Model of `String.trim`. -/
def trimJs (s : List Char) : List Char :=
  ((s.dropWhile isJsSpace).reverse.dropWhile isJsSpace).reverse

/-- Lazy tail of the fence regex: the shortest run of characters before the
next closing triple backtick (`none` when the fence is unterminated). -/
def fenceClose : List Char → Option (List Char)
  | [] => none
  | c :: r =>
    if c = btick then
      match r with
      | c2 :: c3 :: _ => if c2 = btick ∧ c3 = btick then some [] else (fenceClose r).map (c :: ·)
      | _ => (fenceClose r).map (c :: ·)
  else (fenceClose r).map (c :: ·)

/-- One anchored attempt of the fence regex: a triple backtick, a greedy
optional `json` tag, greedy whitespace (the regex's `\s*\n?`), then the lazy
capture up to the next triple backtick. Greediness here never changes whether
the whole pattern matches because the skipped tag and whitespace contain no
backtick, so the greedy-first reading is exact. -/
def tryFenceAt (s : List Char) : Option (List Char) :=
  match s with
  | c1 :: c2 :: c3 :: rest =>
    if c1 = btick ∧ c2 = btick ∧ c3 = btick then
      let rest1 := if ['j', 's', 'o', 'n'].isPrefixOf rest then rest.drop 4 else rest
      fenceClose (rest1.dropWhile isJsSpace)
    else none
  | _ => none

/-- Leftmost match of the fence regex of `extractJson`: the anchored attempt
at each position from the left, keeping the first success. -/
def firstFence : List Char → Option (List Char)
  | [] => none
  | c :: rest => (tryFenceAt (c :: rest)).orElse (fun _ => firstFence rest)

/-- The scan loop of `extractBalanced`: depth counting that ignores string
literal contents and escape sequences; emits the prefix through the delimiter
closing the first opener. -/
def balancedGo (openC closeC : Char) :
    List Char → Int → Bool → Bool → List Char → Option (List Char)
  | [], _, _, _, _ => none
  | c :: r, depth, inStr, esc, acc =>
    if esc then balancedGo openC closeC r depth inStr false (c :: acc)
    else if c = '\\' then balancedGo openC closeC r depth inStr true (c :: acc)
    else if c = '"' then balancedGo openC closeC r depth (!inStr) false (c :: acc)
    else if inStr then balancedGo openC closeC r depth inStr false (c :: acc)
    else if c = openC then balancedGo openC closeC r (depth + 1) false false (c :: acc)
    else if c = closeC then
      if depth - 1 = 0 then some (c :: acc).reverse
      else balancedGo openC closeC r (depth - 1) false false (c :: acc)
    else balancedGo openC closeC r depth false false (c :: acc)

/-- Model of `extractBalanced(text, start, open, close)` applied to the
suffix of `text` that starts at `start`. -/
def extractBalanced (s : List Char) (openC closeC : Char) : Option (List Char) :=
  balancedGo openC closeC s 0 false false []

/-- The suffix of `text` from the first occurrence of `c` (`indexOf`;
`none` when absent). -/
def suffixFrom (c : Char) (s : List Char) : Option (List Char) :=
  match s.dropWhile (fun x => x ≠ c) with
  | [] => none
  | r => some r

/-- Model of `extractJson` on character lists: the fenced capture first
(trimmed, parsed), then the first balanced brace substring, then the first
balanced bracket substring; `none` when every stage fails. -/
def extractJsonL (text : List Char) : Option Json :=
  match (firstFence text).bind (fun cap => parseJsonL (trimJs cap)) with
  | some v => some v
  | none =>
    match (suffixFrom lbrace text).bind
        (fun s => (extractBalanced s lbrace rbrace).bind parseJsonL) with
    | some v => some v
    | none =>
      (suffixFrom '[' text).bind
        (fun s => (extractBalanced s '[' ']').bind parseJsonL)

/-- Model of `extractJson` on strings. -/
def extractJson (s : String) : Option Json := extractJsonL s.toList

example : extractJson "Items: [1, 2, 3]"
    = some (Json.arr [Json.num 1, Json.num 2, Json.num 3]) := by rfl
example : extractJson "This is just plain text with no JSON at all." = none := by rfl
example : extractJson "" = none := by rfl
example : extractJson "\x7b missing close brace" = none := by rfl
example :
    extractJson "Output:\n```\n\x7b\"key\": \"value\"\x7d\n```"
      = some (Json.obj [("key", Json.str "value")]) := by rfl
example :
    extractJson "The result is \x7b\"name\": \"test\", \"count\": 42\x7d and that is it."
      = some (Json.obj [("name", Json.str "test"), ("count", Json.num 42)]) := by rfl
example :
    extractJson "\x7b\"message\": \"He said \\\"hello\\\"\"\x7d"
      = some (Json.obj [("message", Json.str "He said \"hello\"")]) := by rfl
example :
    extractJson "\x7b\"wrong\": true\x7d\n```json\n\x7b\"correct\": true\x7d\n```"
      = some (Json.obj [("correct", Json.bool true)]) := by rfl
example : extractJson "```json\n\x7bnot valid json\x7d\n```" = none := by rfl

example :
    extractJson "\x7b\"code\": \"function() \x7b return \x7b\x7d; \x7d\"\x7d"
      = some (Json.obj [("code", Json.str "function() \x7b return \x7b\x7d; \x7d")]) := by rfl
example :
    extractJson "First:\n```\ntrue\n```\nthen:\n```json\n\x7b\"a\": 1\x7d\n```"
      = some (Json.bool true) := by rfl

/-! ## Retry policy (`packages/cli/src/util/retry.ts`)

The loop is modelled as a pure function of the per-attempt outcomes; delays
and jitter do not affect which attempts run or what is returned, so they are
not part of the model. The result records the attempt indices passed to the
operation, in order, and the final outcome; `Except.error none` is the
`throw lastError` with `lastError` still `undefined` (only reachable with
`maxAttempts = 0`). -/

/-- The `for (attempt...)` loop of `retry`: `attempt` is the next index,
`remaining` the attempts left, `lastErr` the last caught failure. -/
def retryGo {E A : Type} (ops : Nat → Except E A) (abort : E → Bool) :
    Nat → Nat → Option E → List Nat × Except (Option E) A
  | _, 0, lastErr => ([], Except.error lastErr)
  | attempt, rem + 1, _lastErr =>
    match ops attempt with
    | Except.ok a => ([attempt], Except.ok a)
    | Except.error e =>
      if abort e then ([attempt], Except.error (some e))
      else
        let rest := retryGo ops abort (attempt + 1) rem (some e)
        (attempt :: rest.1, rest.2)

/-- Model of `retry(fn, options)`: the invoked attempt indices and the
outcome. -/
def retryModel {E A : Type} (ops : Nat → Except E A) (abort : E → Bool)
    (maxAttempts : Nat) : List Nat × Except (Option E) A :=
  retryGo ops abort 0 maxAttempts none

/-! ## Shared poll-to-completion protocol (planner.ts / integration phase)

One polling cycle observes a session snapshot and the event window returned
by `getEvents`; the loops are modelled as functions of the (finite) list of
cycles they would observe, returning `none` while still polling, and
otherwise the `Except` outcome (`error` models the `throw`). -/

/-- Session snapshot used by the poll loops (`getSession` result). -/
structure SessionSnapshot where
  isProcessing : Bool
  sandboxStatus : String
  branchName : Option String
deriving DecidableEq

/-- An event from `getEvents`; `content` is `data.content` when it is a
string, `success` is `data.success` when boolean, `error` is `data.error`
(absent/empty modelling falsy). -/
structure AgentEvent where
  id : String
  type : String
  content : Option String
  success : Option Bool
  error : Option String
deriving DecidableEq

/-- One observed poll cycle. -/
structure PollCycle where
  session : SessionSnapshot
  events : List AgentEvent
deriving DecidableEq

/-- Accumulator shared by both poll loops: the seen-event-id set, the token
chunks (in arrival order) and the `hasStarted` flag. -/
structure PollAcc where
  seen : List String
  tokens : List String
  hasStarted : Bool
deriving DecidableEq

/-- Event scan of the planner's `pollForCompletion` body: deduplicate by id,
collect token chunks, track `hasStarted`, latch `executionComplete`, and
record an error message from a failed `execution_complete` (success strictly
`false` with truthy `error`) or from an `error` event with truthy `error`:
the body of the event loop, one event at a time. -/
def plannerScanStep (st : PollAcc × Bool × Option String) (ev : AgentEvent) :
    PollAcc × Bool × Option String :=
  let acc := st.1
  if acc.seen.contains ev.id then st
  else
    let acc := { acc with seen := ev.id :: acc.seen }
    let acc :=
      if ev.type = "token" ∧ ev.content.isSome then
        { acc with tokens := acc.tokens ++ [ev.content.getD ""], hasStarted := true }
      else acc
    let acc := if ev.type = "ready" then { acc with hasStarted := true } else acc
    let ec := if ev.type = "execution_complete" then true else st.2.1
    let err :=
      if ev.type = "execution_complete" ∧ ev.success = some false ∧ strTruthy ev.error then
        ev.error
      else st.2.2
    let err := if ev.type = "error" ∧ strTruthy ev.error then ev.error else err
    (acc, ec, err)

/-- The event loop of the planner's cycle body, folded over the window. -/
def plannerScan (events : List AgentEvent) (acc0 : PollAcc) :
    PollAcc × Bool × Option String :=
  events.foldl plannerScanStep (acc0, false, none)

/-- The planner's `pollForCompletion` over a list of observed cycles:
terminates with `Except.error` when an `execution_complete` was scanned and
an error message is held, with `Except.ok` of the joined token text on a
clean `execution_complete` or on the stopped-sandbox fallback, and keeps
polling (`none`) otherwise. -/
def plannerPollGo : List PollCycle → PollAcc → Option (Except String String)
  | [], _ => none
  | cy :: rest, acc0 =>
    let acc1 := if cy.session.isProcessing then { acc0 with hasStarted := true } else acc0
    let scanned := plannerScan cy.events acc1
    let acc := scanned.1
    if scanned.2.1 then
      if strTruthy scanned.2.2 then
        some (Except.error ("Agent execution failed: " ++ (scanned.2.2.getD "")))
      else some (Except.ok (String.join acc.tokens))
    else if acc.hasStarted ∧ cy.session.sandboxStatus = "stopped" then
      some (Except.ok (String.join acc.tokens))
    else plannerPollGo rest acc

/-- The planner's poll loop from its initial state. -/
def plannerPoll (cycles : List PollCycle) : Option (Except String String) :=
  plannerPollGo cycles ⟨[], [], false⟩

/-- Event scan of the integration phase's `pollForCompletion` body: like the
planner's but with no failure tracking at all — only the `executionComplete`
latch. -/
def integratorScanStep (st : PollAcc × Bool) (ev : AgentEvent) : PollAcc × Bool :=
  let acc := st.1
  if acc.seen.contains ev.id then st
  else
    let acc := { acc with seen := ev.id :: acc.seen }
    let acc :=
      if ev.type = "token" ∧ ev.content.isSome then
        { acc with tokens := acc.tokens ++ [ev.content.getD ""], hasStarted := true }
      else acc
    let acc := if ev.type = "ready" then { acc with hasStarted := true } else acc
    let ec := if ev.type = "execution_complete" then true else st.2
    (acc, ec)

/-- The event loop of the integration phase's cycle body. -/
def integratorScan (events : List AgentEvent) (acc0 : PollAcc) : PollAcc × Bool :=
  events.foldl integratorScanStep (acc0, false)

/-- The integration phase's `pollForCompletion` over observed cycles: any
`execution_complete` event ends the loop successfully; failure payloads and
`error` events are not inspected. -/
def integratorPollGo : List PollCycle → PollAcc → Option (Except String String)
  | [], _ => none
  | cy :: rest, acc0 =>
    let acc1 := if cy.session.isProcessing then { acc0 with hasStarted := true } else acc0
    let scanned := integratorScan cy.events acc1
    let acc := scanned.1
    if scanned.2 then some (Except.ok (String.join acc.tokens))
    else if acc.hasStarted ∧ cy.session.sandboxStatus = "stopped" then
      some (Except.ok (String.join acc.tokens))
    else integratorPollGo rest acc

/-- The integration phase's poll loop from its initial state. -/
def integratorPoll (cycles : List PollCycle) : Option (Except String String) :=
  integratorPollGo cycles ⟨[], [], false⟩

/-! ## Worker prompt helpers (`packages/cli/src/prompts/worker.ts`) -/

/-- One character is in the `[a-z0-9]` class kept by `slugify`. -/
def slugKeep (c : Char) : Bool :=
  ('a' ≤ c && c ≤ 'z') || ('0' ≤ c && c ≤ '9')

/-- The `replace(/[^a-z0-9]+/g, "-")` step, with a flag marking that the
scan is inside a run of replaced characters: each maximal run of other
characters becomes a single hyphen. -/
def slugCollapseGo : Bool → List Char → List Char
  | _, [] => []
  | inRun, c :: r =>
    if slugKeep c then c :: slugCollapseGo false r
    else if inRun then slugCollapseGo true r
    else '-' :: slugCollapseGo true r

/-- Each maximal run of non-`[a-z0-9]` characters becomes a single hyphen. -/
def slugCollapse (l : List Char) : List Char :=
  slugCollapseGo false l

/-- The `replace(/^-|-$/g, "")` step: drop one leading and one trailing
hyphen (after collapsing, at most one of each exists). -/
def slugStrip (l : List Char) : List Char :=
  let l1 := match l with
    | '-' :: r => r
    | _ => l
  match l1.getLast? with
  | some '-' => l1.dropLast
  | _ => l1

/-- Model of `slugify` in `worker.ts`: lower-case, collapse non-alphanumeric
runs to hyphens, strip edge hyphens, truncate to 40 characters. -/
def slugify (text : String) : String :=
  String.mk ((slugStrip (slugCollapse (text.toList.map Char.toLower))).take 40)

/-- Model of `expectedBranchName` in `worker.ts`. -/
def expectedBranchName (task : TaskNode) : String :=
  "oi/" ++ task.id ++ "-" ++ slugify task.title

example : slugify "Hello, World! Refactor Auth System Completely"
    = "hello-world-refactor-auth-system-complet" := by rfl
example : (slugify "Hello, World! Refactor Auth System Completely").length = 40 := by rfl

/-! ## Integration phase (`runIntegration`)

`runIntegration` is modelled as a pure function of the project state and of
the remote collaborator's responses (`IntegEnv`): the created session id, the
final `getSession` snapshot and the `getArtifacts` list. The poll loop's
return value is discarded by the source, so the environment describes the
observations after polling has completed; the `Bool` component records
whether a merge session was created. `none` models the `TypeError` thrown
when `state.plan` is null while completed tasks exist. -/

/-- An entry of `getArtifacts`. -/
structure SessionArtifact where
  type : String
  url : Option String
deriving DecidableEq

/-- The per-task record assembled from each completed task (`runIntegration`
lines 35–45). -/
structure CompletedTask where
  taskId : String
  title : String
  summary : String
  branchName : String
deriving DecidableEq

/-- Environment of one `runIntegration` run. -/
structure IntegEnv where
  sessionId : String
  finalSession : SessionSnapshot
  artifacts : List SessionArtifact
deriving DecidableEq

/-- Result record of `runIntegration`. -/
structure IntegrationResult where
  branchName : Option String
  prUrl : Option String
deriving DecidableEq

/-- The completed-task collection of `runIntegration`: tasks whose status is
`completed` and whose `branchName` is truthy; the title falls back from the
plan lookup to the task id. -/
def completedTasksOf (st : ProjectState) : Option (List CompletedTask) :=
  ((st.tasks.map Prod.snd).filter
      (fun t => t.status = TaskStatus.completed ∧ strTruthy t.branchName)).mapM
    (fun t =>
      match st.plan with
      | none => none
      | some p =>
        some
          { taskId := t.taskId
            title :=
              match p.tasks.find? (fun n => n.id = t.taskId) with
              | some n => if n.title ≠ "" then n.title else t.taskId
              | none => t.taskId
            summary := t.summary.getD ""
            branchName := t.branchName.getD "" })

/-- The entry mutations of `runIntegration` (phase and sub-state marked
running) before completed tasks are collected. -/
def integStart (st0 : ProjectState) : ProjectState :=
  { st0 with
    phase := ProjectPhase.integrating
    integration := { st0.integration with status := SubStatus.running } }

/-- Model of `runIntegration`: the final project state, the raised or
returned result, and whether a merge session was created. -/
def runIntegrationModel (st0 : ProjectState) (env : IntegEnv) :
    Option (ProjectState × Except String IntegrationResult × Bool) :=
  let st := integStart st0
  match completedTasksOf st with
  | none => none
  | some completed =>
    match completed with
    | [] =>
      some
        ({ st with
            integration := { st.integration with
              status := SubStatus.failed
              error := some "No completed tasks to integrate" }
            phase := ProjectPhase.failed },
          Except.error "No completed tasks to integrate", false)
    | [c] =>
      some
        ({ st with
            integration := { st.integration with
              status := SubStatus.completed
              mergedBranch := some c.branchName }
            phase := ProjectPhase.completed },
          Except.ok ⟨some c.branchName, none⟩, false)
    | _ :: _ :: _ =>
      let st1 := { st with
        integration := { st.integration with sessionId := some env.sessionId } }
      let prArtifact := env.artifacts.find? (fun a => a.type = "pr" ∧ strTruthy a.url)
      let result : IntegrationResult :=
        ⟨env.finalSession.branchName,
          match prArtifact with
          | some a => a.url
          | none => none⟩
      some
        ({ st1 with
            integration := { st1.integration with
              status := SubStatus.completed
              mergedBranch := result.branchName
              prUrl := result.prUrl }
            phase := ProjectPhase.completed },
          Except.ok result, true)

/-! ## Execution scheduler (`runExecution` / `spawnTask` / `pollTask`)

One iteration of the `for (;;)` loop of `runExecution` is modelled as a pure
step function of the tasks map, parameterised by the remote collaborator's
behaviour (`ExecEnv`). Persistence points do not change the computed states
and are omitted; `none` models the `TypeError` raised by
`taskMap.get(...)!` on a tracked task id missing from the plan. -/

/-- Outcome of the `try` block of `spawnTask`: session creation and prompt
delivery succeeded, `createSession` threw (before a session id was recorded),
or `sendPrompt` threw (after the session id and expected branch were
recorded). -/
inductive SpawnRes where
  | ok (sessionId : String)
  | failEarly (msg : String)
  | failLate (sessionId : String) (msg : String)
deriving DecidableEq

/-- Environment of one scheduler iteration: spawn outcomes per task id, the
clock, per-task poll transport failures, and the session/event observations
per session id. -/
structure ExecEnv where
  spawn : String → SpawnRes
  now : Nat
  pollThrows : String → Bool
  getSession : String → SessionSnapshot
  getEvents : String → List AgentEvent

/-- Key-preserving update of the tasks map (mutation of one
`state.tasks[id]` record in place). -/
def updTask (st : List (String × TaskExecution)) (k : String)
    (f : TaskExecution → TaskExecution) : List (String × TaskExecution) :=
  st.map (fun p => if p.1 = k then (p.1, f p.2) else p)

/-- Effect of `spawnTask` on the task's execution record. -/
def spawnTaskModel (env : ExecEnv) (task : TaskNode) (exec : TaskExecution) :
    TaskExecution :=
  let e1 := { exec with status := TaskStatus.running, startedAt := some env.now }
  match env.spawn task.id with
  | SpawnRes.ok sid =>
    { e1 with sessionId := some sid, branchName := some (expectedBranchName task) }
  | SpawnRes.failEarly msg =>
    { e1 with status := TaskStatus.failed, error := some msg, completedAt := some env.now }
  | SpawnRes.failLate sid msg =>
    { e1 with
      sessionId := some sid
      branchName := some (expectedBranchName task)
      status := TaskStatus.failed
      error := some msg
      completedAt := some env.now }

/-- Event scan of `pollTask` (no deduplication): the `executionComplete` and
`hasError` flags, the latest truthy error message, and the token chunks. -/
def execScanEvents (events : List AgentEvent) :
    Bool × Bool × Option String × List String :=
  events.foldl
    (fun st ev =>
      let tokens :=
        if ev.type = "token" ∧ ev.content.isSome then st.2.2.2 ++ [ev.content.getD ""]
        else st.2.2.2
      let ec := if ev.type = "execution_complete" then true else st.1
      let hasErr :=
        if ev.type = "execution_complete" ∧ ev.success = some false then true else st.2.1
      let errMsg :=
        if ev.type = "execution_complete" ∧ ev.success = some false ∧ strTruthy ev.error then
          ev.error
        else st.2.2.1
      let hasErr := if ev.type = "error" then true else hasErr
      let errMsg := if ev.type = "error" ∧ strTruthy ev.error then ev.error else errMsg
      (ec, hasErr, errMsg, tokens))
    (false, false, none, [])

/-- The summary truncation of `pollTask`: the final 500 characters of the
joined token text. -/
def last500 (tokens : List String) : String :=
  let t := String.join tokens
  if t.length > 500 then String.mk (t.toList.drop (t.toList.length - 500)) else t

/-- Effect of one `pollTask` call on a running task's execution record:
unchanged while the session id is missing, the transport fails, the sandbox
is starting up, or no terminal signal is visible; otherwise the branch,
summary, terminal status, error and completion time are recorded. -/
def pollTaskModel (env : ExecEnv) (exec : TaskExecution) : TaskExecution :=
  match exec.sessionId with
  | none => exec
  | some sid =>
    if env.pollThrows exec.taskId then exec
    else
      let session := env.getSession sid
      if session.sandboxStatus = "pending" ∨ session.sandboxStatus = "warming" ∨
          session.sandboxStatus = "syncing" then exec
      else
        let scanned := execScanEvents (env.getEvents sid)
        if ¬scanned.1 ∧ session.sandboxStatus ≠ "stopped" then exec
        else
          let e1 :=
            if strTruthy session.branchName then { exec with branchName := session.branchName }
            else exec
          let e2 := { e1 with summary := some (last500 scanned.2.2.2) }
          let e3 :=
            if scanned.2.1 then
              { e2 with
                status := TaskStatus.failed
                error := some
                  (if strTruthy scanned.2.2.1 then scanned.2.2.1.getD ""
                  else "Session completed with errors") }
            else { e2 with status := TaskStatus.completed }
          { e3 with completedAt := some env.now }

/-- The readiness computation of the scheduler loop: pending tasks all of
whose dependencies are tracked with status `completed` or `skipped`, paired
with their plan nodes (`none` models the `!` crash on an untracked plan
node). -/
def readyOf (plan : Plan) (st : List (String × TaskExecution)) :
    Option (List (TaskExecution × TaskNode)) :=
  let taskMap := alistOf (plan.tasks.map (fun t => (t.id, t)))
  let pending := (st.map Prod.snd).filter (fun t => t.status = TaskStatus.pending)
  pending.foldlM
    (fun acc e =>
      match alistGet taskMap e.taskId with
      | none => none
      | some task =>
        some
          (if task.dependsOn.all
              (fun depId =>
                match alistGet st depId with
                | some dep =>
                  dep.status = TaskStatus.completed ∨ dep.status = TaskStatus.skipped
                | none => false) then
            acc ++ [(e, task)]
          else acc))
    []

/-- `Array.prototype.slice(0, end)` with a possibly negative end index. -/
def jsSliceFromZero {α : Type} (l : List α) (e : Int) : List α :=
  if e < 0 then l.take (l.length - (-e).toNat) else l.take e.toNat

/-- One iteration of the scheduler loop: compute ready tasks, spawn into the
free slots, either detect quiescence (skipping every still-pending task and
exiting) or poll every running task. Returns the new tasks map and whether
the loop exited. -/
def execStep (plan : Plan) (maxParallel : Nat) (env : ExecEnv)
    (st : List (String × TaskExecution)) :
    Option (List (String × TaskExecution) × Bool) :=
  let values := st.map Prod.snd
  let pending := values.filter (fun t => t.status = TaskStatus.pending)
  let running := values.filter (fun t => t.status = TaskStatus.running)
  match readyOf plan st with
  | none => none
  | some ready =>
    let toSpawn := jsSliceFromZero ready ((maxParallel : Int) - running.length)
    let st1 := toSpawn.foldl
      (fun s et => updTask s et.1.taskId (spawnTaskModel env et.2)) st
    if running.length = 0 ∧ toSpawn.length = 0 then
      let st2 := pending.foldl
        (fun s e => updTask s e.taskId
          (fun ex => { ex with
            status := TaskStatus.skipped
            error := some "Skipped: dependency failed" }))
        st1
      some (st2, true)
    else
      let runningNow := (st1.map Prod.snd).filter (fun t => t.status = TaskStatus.running)
      let st3 := runningNow.foldl (fun s e => updTask s e.taskId (pollTaskModel env)) st1
      some (st3, false)

/-! ## Project store (`packages/cli/src/state/project.ts`)

`saveProject` stamps `updatedAt`, serialises with `JSON.stringify` and
atomically renames over the target file; `loadProject` reads the file and
`JSON.parse`s it (`null` on a missing or unparsable file). The file system is
modelled as a map from file name to the parsed JSON tree; the
`stringify`/`parse` string layer is the identity on that tree, and reading a
saved record back as a `ProjectState` is the structure-decoding below (total
on every tree `saveProject` writes). -/

/-- Phase encoding used in the persisted JSON. -/
def phaseToStr : ProjectPhase → String
  | ProjectPhase.planning => "planning"
  | ProjectPhase.approval => "approval"
  | ProjectPhase.executing => "executing"
  | ProjectPhase.integrating => "integrating"
  | ProjectPhase.completed => "completed"
  | ProjectPhase.failed => "failed"

/-- Phase decoding. -/
def strToPhase : String → Option ProjectPhase
  | "planning" => some ProjectPhase.planning
  | "approval" => some ProjectPhase.approval
  | "executing" => some ProjectPhase.executing
  | "integrating" => some ProjectPhase.integrating
  | "completed" => some ProjectPhase.completed
  | "failed" => some ProjectPhase.failed
  | _ => none

/-- Sub-state status encoding. -/
def subStatusToStr : SubStatus → String
  | SubStatus.pending => "pending"
  | SubStatus.running => "running"
  | SubStatus.completed => "completed"
  | SubStatus.failed => "failed"

/-- Sub-state status decoding. -/
def strToSubStatus : String → Option SubStatus
  | "pending" => some SubStatus.pending
  | "running" => some SubStatus.running
  | "completed" => some SubStatus.completed
  | "failed" => some SubStatus.failed
  | _ => none

/-- Task status encoding. -/
def taskStatusToStr : TaskStatus → String
  | TaskStatus.pending => "pending"
  | TaskStatus.running => "running"
  | TaskStatus.completed => "completed"
  | TaskStatus.failed => "failed"
  | TaskStatus.skipped => "skipped"

/-- Task status decoding. -/
def strToTaskStatus : String → Option TaskStatus
  | "pending" => some TaskStatus.pending
  | "running" => some TaskStatus.running
  | "completed" => some TaskStatus.completed
  | "failed" => some TaskStatus.failed
  | "skipped" => some TaskStatus.skipped
  | _ => none

/-- Complexity encoding. -/
def complexityToStr : Complexity → String
  | Complexity.small => "small"
  | Complexity.medium => "medium"
  | Complexity.large => "large"

/-- Complexity decoding. -/
def strToComplexity : String → Option Complexity
  | "small" => some Complexity.small
  | "medium" => some Complexity.medium
  | "large" => some Complexity.large
  | _ => none

/-- A nullable string field (`string | null` in `types.ts`). -/
def optStrToJson : Option String → Json
  | none => Json.null
  | some s => Json.str s

/-- Decoding of a nullable string field. -/
def jsonToOptStr : Json → Option (Option String)
  | Json.null => some none
  | Json.str s => some (some s)
  | _ => none

/-- A numeric timestamp field. -/
def natToJson (n : Nat) : Json := Json.num n

/-- Decoding of a numeric timestamp field. -/
def jsonToNat : Json → Option Nat
  | Json.num q => if q.den = 1 ∧ 0 ≤ q.num then some q.num.toNat else none
  | _ => none

/-- A nullable timestamp field (`number | null`). -/
def optNatToJson : Option Nat → Json
  | none => Json.null
  | some n => natToJson n

/-- Decoding of a nullable timestamp field. -/
def jsonToOptNat : Json → Option (Option Nat)
  | Json.null => some none
  | j => (jsonToNat j).map some

/-- Decoding of a JSON string field. -/
def jsonToStr : Json → Option String
  | Json.str s => some s
  | _ => none

/-- Serialisation of a `TaskNode`. -/
def taskNodeToJson (t : TaskNode) : Json :=
  Json.obj
    [("id", Json.str t.id), ("title", Json.str t.title),
      ("description", Json.str t.description),
      ("fileScope", Json.arr (t.fileScope.map Json.str)),
      ("dependsOn", Json.arr (t.dependsOn.map Json.str)),
      ("complexity", Json.str (complexityToStr t.complexity))]

/-- Decoding of a `TaskNode`. -/
def taskNodeFromJson : Json → Option TaskNode
  | Json.obj [("id", Json.str id), ("title", Json.str title),
      ("description", Json.str de), ("fileScope", Json.arr fs),
      ("dependsOn", Json.arr ds), ("complexity", Json.str cx)] => do
    let fileScope ← fs.mapM jsonToStr
    let dependsOn ← ds.mapM jsonToStr
    let complexity ← strToComplexity cx
    some ⟨id, title, de, fileScope, dependsOn, complexity⟩
  | _ => none

/-- Serialisation of a `Plan`. -/
def planToJson (p : Plan) : Json :=
  Json.obj [("summary", Json.str p.summary), ("tasks", Json.arr (p.tasks.map taskNodeToJson))]

/-- Decoding of a `Plan`. -/
def planFromJson : Json → Option Plan
  | Json.obj [("summary", Json.str s), ("tasks", Json.arr ts)] => do
    let tasks ← ts.mapM taskNodeFromJson
    some ⟨s, tasks⟩
  | _ => none

/-- Serialisation of a `PlanningState` (the optional `error` key is omitted
when absent, as `JSON.stringify` drops `undefined` members). -/
def planningToJson (p : PlanningState) : Json :=
  Json.obj
    ([("sessionId", optStrToJson p.sessionId), ("model", Json.str p.model),
        ("status", Json.str (subStatusToStr p.status))] ++
      (match p.error with
        | none => []
        | some e => [("error", Json.str e)]))

/-- Decoding of a `PlanningState`. -/
def planningFromJson : Json → Option PlanningState
  | Json.obj [("sessionId", sid), ("model", Json.str m), ("status", Json.str st)] => do
    let sessionId ← jsonToOptStr sid
    let status ← strToSubStatus st
    some ⟨sessionId, m, status, none⟩
  | Json.obj [("sessionId", sid), ("model", Json.str m), ("status", Json.str st),
      ("error", Json.str e)] => do
    let sessionId ← jsonToOptStr sid
    let status ← strToSubStatus st
    some ⟨sessionId, m, status, some e⟩
  | _ => none

/-- Serialisation of an `IntegrationState`. -/
def integrationToJson (p : IntegrationState) : Json :=
  Json.obj
    ([("sessionId", optStrToJson p.sessionId),
        ("status", Json.str (subStatusToStr p.status)),
        ("mergedBranch", optStrToJson p.mergedBranch),
        ("prUrl", optStrToJson p.prUrl)] ++
      (match p.error with
        | none => []
        | some e => [("error", Json.str e)]))

/-- Decoding of an `IntegrationState`. -/
def integrationFromJson : Json → Option IntegrationState
  | Json.obj [("sessionId", sid), ("status", Json.str st), ("mergedBranch", mb),
      ("prUrl", pu)] => do
    let sessionId ← jsonToOptStr sid
    let status ← strToSubStatus st
    let mergedBranch ← jsonToOptStr mb
    let prUrl ← jsonToOptStr pu
    some ⟨sessionId, status, mergedBranch, prUrl, none⟩
  | Json.obj [("sessionId", sid), ("status", Json.str st), ("mergedBranch", mb),
      ("prUrl", pu), ("error", Json.str e)] => do
    let sessionId ← jsonToOptStr sid
    let status ← strToSubStatus st
    let mergedBranch ← jsonToOptStr mb
    let prUrl ← jsonToOptStr pu
    some ⟨sessionId, status, mergedBranch, prUrl, some e⟩
  | _ => none

/-- Serialisation of a `TaskExecution`. -/
def taskExecutionToJson (t : TaskExecution) : Json :=
  Json.obj
    [("taskId", Json.str t.taskId), ("status", Json.str (taskStatusToStr t.status)),
      ("sessionId", optStrToJson t.sessionId), ("branchName", optStrToJson t.branchName),
      ("startedAt", optNatToJson t.startedAt), ("completedAt", optNatToJson t.completedAt),
      ("summary", optStrToJson t.summary), ("error", optStrToJson t.error),
      ("retryCount", natToJson t.retryCount)]

/-- Decoding of a `TaskExecution`. -/
def taskExecutionFromJson : Json → Option TaskExecution
  | Json.obj [("taskId", Json.str tid), ("status", Json.str st), ("sessionId", sid),
      ("branchName", bn), ("startedAt", sa), ("completedAt", ca), ("summary", su),
      ("error", er), ("retryCount", rc)] => do
    let status ← strToTaskStatus st
    let sessionId ← jsonToOptStr sid
    let branchName ← jsonToOptStr bn
    let startedAt ← jsonToOptNat sa
    let completedAt ← jsonToOptNat ca
    let summary ← jsonToOptStr su
    let error ← jsonToOptStr er
    let retryCount ← jsonToNat rc
    some ⟨tid, status, sessionId, branchName, startedAt, completedAt, summary, error,
      retryCount⟩
  | _ => none

/-- Serialisation of the nullable `plan` field. -/
def optPlanToJson : Option Plan → Json
  | none => Json.null
  | some pl => planToJson pl

/-- Decoding of the nullable `plan` field. -/
def jsonToOptPlan : Json → Option (Option Plan)
  | Json.null => some none
  | j => (planFromJson j).map some

/-- Serialisation of a whole `ProjectState`, mirroring the key order of the
record literals in `project.ts`. -/
def projectToJson (p : ProjectState) : Json :=
  Json.obj
    [("id", Json.str p.id), ("createdAt", natToJson p.createdAt),
      ("updatedAt", natToJson p.updatedAt), ("goal", Json.str p.goal),
      ("repo", Json.obj [("owner", Json.str p.repoOwner), ("name", Json.str p.repoName)]),
      ("phase", Json.str (phaseToStr p.phase)),
      ("planning", planningToJson p.planning),
      ("plan", optPlanToJson p.plan),
      ("tasks", Json.obj (p.tasks.map (fun kv => (kv.1, taskExecutionToJson kv.2)))),
      ("integration", integrationToJson p.integration)]

/-- Decoding of a whole `ProjectState`. -/
def projectFromJson : Json → Option ProjectState
  | Json.obj [("id", Json.str id), ("createdAt", ca), ("updatedAt", ua),
      ("goal", Json.str goal),
      ("repo", Json.obj [("owner", Json.str ow), ("name", Json.str nm)]),
      ("phase", Json.str ph), ("planning", pl), ("plan", plan),
      ("tasks", Json.obj tk), ("integration", ig)] => do
    let createdAt ← jsonToNat ca
    let updatedAt ← jsonToNat ua
    let phase ← strToPhase ph
    let planning ← planningFromJson pl
    let planVal ← jsonToOptPlan plan
    let tasks ← tk.mapM (fun kv => (taskExecutionFromJson kv.2).map (fun v => (kv.1, v)))
    let integration ← integrationFromJson ig
    some ⟨id, createdAt, updatedAt, goal, ow, nm, phase, planning, planVal, tasks,
      integration⟩
  | _ => none

/-- The file name `saveProject` derives from the project id. -/
def projectFile (id : String) : String := id ++ ".json"

/-- Model of `saveProject`: stamp `updatedAt`, then atomically replace the
project's file content; returns the new file system and the stamped state. -/
def saveProjectFS (fs : List (String × Json)) (now : Nat) (p : ProjectState) :
    List (String × Json) × ProjectState :=
  let p' := { p with updatedAt := now }
  ((projectFile p.id, projectToJson p') :: fs, p')

/-- Model of `loadProject`: read and decode, `none` on a missing or
non-conforming file. -/
def loadProjectFS (fs : List (String × Json)) (id : String) : Option ProjectState :=
  match alistGet fs (projectFile id) with
  | none => none
  | some j => projectFromJson j

/-! ## Graph-theoretic vocabulary for the DAG theorems -/

/-- The dependency edge relation induced by a task list: `a` depends
directly on `b`. -/
def depEdge (tasks : List TaskNode) (a b : String) : Prop :=
  ∃ t ∈ tasks, t.id = a ∧ b ∈ t.dependsOn

/-- Acyclicity of the dependency relation (no id reaches itself through one
or more edges; a self-dependency is a cycle of length one). -/
def NoDepCycle (tasks : List TaskNode) : Prop :=
  ∀ a, ¬ Relation.TransGen (depEdge tasks) a a

/-- Every dependency of every task references an id of the list. -/
def Resolvable (tasks : List TaskNode) : Prop :=
  ∀ t ∈ tasks, ∀ d ∈ t.dependsOn, d ∈ tasks.map (fun u => u.id)

/-- The ids of the list are pairwise distinct. -/
def UniqueIds (tasks : List TaskNode) : Prop :=
  (tasks.map (fun u => u.id)).Nodup

/-- `alistOf` is reversal: prepending while folding from the left. -/
theorem alistOf_eq_reverse {α : Type} (pairs : List (String × α)) :
    alistOf pairs = pairs.reverse := by
  unfold alistOf
  suffices h : ∀ acc, pairs.foldl (fun m p => p :: m) acc = pairs.reverse ++ acc by
    rw [h [], List.append_nil]
  induction pairs with
  | nil => intro acc; rfl
  | cons p ps ih => intro acc; simp [List.foldl_cons, ih, List.reverse_cons]

/-- A successful association lookup returns a listed binding with the looked
up key. -/
theorem alistGet_mem {α : Type} {l : List (String × α)} {k : String} {v : α}
    (h : alistGet l k = some v) : (k, v) ∈ l := by
  unfold alistGet at h
  cases hf : l.find? (fun p => p.1 = k) with
  | none => simp [hf] at h
  | some pr =>
    simp only [hf, Option.map_some] at h
    have hmem := List.mem_of_find?_eq_some hf
    have hkey := List.find?_some hf
    have : pr.1 = k := by simpa using hkey
    have : pr = (k, v) := by
      cases pr with
      | mk a b => simp_all
    simpa [this] using hmem

/-- A key that occurs among the bindings is found. -/
theorem alistGet_isSome {α : Type} {l : List (String × α)} {k : String}
    (h : ∃ v, (k, v) ∈ l) : (alistGet l k).isSome := by
  obtain ⟨v, hv⟩ := h
  unfold alistGet
  have : (l.find? (fun p => p.1 = k)).isSome := by
    rw [List.find?_isSome]
    exact ⟨(k, v), hv, by simp⟩
  cases hf : l.find? (fun p => p.1 = k) with
  | none => rw [hf] at this; simp at this
  | some pr => simp

/-- Lookup in the task map built by the graph functions: a found node is a
listed node carrying the looked-up id. -/
theorem taskMapGet_some {tasks : List TaskNode} {id : String} {t : TaskNode}
    (h : alistGet (alistOf (tasks.map (fun u => (u.id, u)))) id = some t) :
    t ∈ tasks ∧ t.id = id := by
  rw [alistOf_eq_reverse] at h
  have hmem := alistGet_mem h
  rw [List.mem_reverse] at hmem
  obtain ⟨u, hu, he⟩ := List.mem_map.mp hmem
  have h1 : u.id = id := congrArg Prod.fst he
  have h2 : u = t := congrArg Prod.snd he
  subst h2
  exact ⟨hu, h1⟩

/-- Lookup in the task map succeeds on every listed id. -/
theorem taskMapGet_isSome {tasks : List TaskNode} {id : String}
    (h : id ∈ tasks.map (fun u => u.id)) :
    (alistGet (alistOf (tasks.map (fun u => (u.id, u)))) id).isSome := by
  rw [alistOf_eq_reverse]
  obtain ⟨u, hu, he⟩ := List.mem_map.mp h
  exact alistGet_isSome ⟨u, by
    rw [List.mem_reverse]
    exact List.mem_map.mpr ⟨u, hu, by simp [he]⟩⟩

/-- With pairwise distinct ids, two listed tasks with the same id coincide. -/
theorem mem_unique_by_id {tasks : List TaskNode} (hu : UniqueIds tasks)
    {t t' : TaskNode} (ht : t ∈ tasks) (ht' : t' ∈ tasks) (hid : t.id = t'.id) :
    t = t' :=
  List.inj_on_of_nodup_map hu ht ht' hid

/-- With pairwise distinct ids the task map resolves each task's id to the
task itself. -/
theorem taskMapGet_self {tasks : List TaskNode} (hu : UniqueIds tasks)
    {t : TaskNode} (ht : t ∈ tasks) :
    alistGet (alistOf (tasks.map (fun u => (u.id, u)))) t.id = some t := by
  have hs := @taskMapGet_isSome tasks t.id
    (List.mem_map.mpr ⟨t, ht, rfl⟩)
  cases hg : alistGet (alistOf (tasks.map (fun u => (u.id, u)))) t.id with
  | none => rw [hg] at hs; simp at hs
  | some t' =>
    obtain ⟨ht', hid⟩ := taskMapGet_some hg
    rw [mem_unique_by_id hu ht ht' hid.symm]

/-- A chain of dependency edges reaches each of its members. -/
theorem chain_transGen {tasks : List TaskNode} {a b : String} {l : List String}
    (hc : List.Chain (depEdge tasks) a l) (hb : b ∈ l) :
    Relation.TransGen (depEdge tasks) a b := by
  induction l generalizing a with
  | nil => cases hb
  | cons c l ih =>
    rw [List.chain_cons] at hc
    rcases List.mem_cons.mp hb with rfl | hb
    · exact Relation.TransGen.single hc.1
    · exact Relation.TransGen.head hc.1 (ih hc.2 hb)

/-- Under acyclicity every dependency chain is duplicate-free. -/
theorem chain_nodup {tasks : List TaskNode} (hnc : NoDepCycle tasks) :
    ∀ (a : String) (l : List String), List.Chain (depEdge tasks) a l → (a :: l).Nodup := by
  intro a l hc
  induction l generalizing a with
  | nil => simp
  | cons b l ih =>
    rw [List.chain_cons] at hc
    have hnd := ih b hc.2
    rw [List.nodup_cons]
    refine ⟨?_, hnd⟩
    intro hmem
    rcases List.mem_cons.mp hmem with rfl | hmem
    · exact hnc a (Relation.TransGen.single hc.1)
    · exact hnc a (Relation.TransGen.head hc.1 (chain_transGen hc.2 hmem))

/-- The source of an edge is a listed id. -/
theorem edge_src_mem {tasks : List TaskNode} {a b : String}
    (h : depEdge tasks a b) : a ∈ tasks.map (fun u => u.id) := by
  obtain ⟨t, ht, rfl, _⟩ := h
  exact List.mem_map_of_mem _ ht

/-- With resolvable dependencies the target of an edge is a listed id. -/
theorem edge_tgt_mem {tasks : List TaskNode} (hr : Resolvable tasks) {a b : String}
    (h : depEdge tasks a b) : b ∈ tasks.map (fun u => u.id) := by
  obtain ⟨t, ht, _, hb⟩ := h
  exact hr t ht b hb

/-- With resolvable dependencies every chain member is a listed id. -/
theorem chain_mem_ids {tasks : List TaskNode} (hr : Resolvable tasks) :
    ∀ (a : String) (l : List String), List.Chain (depEdge tasks) a l →
      ∀ x ∈ l, x ∈ tasks.map (fun u => u.id) := by
  intro a l hc
  induction l generalizing a with
  | nil => intro x hx; cases hx
  | cons b l ih =>
    rw [List.chain_cons] at hc
    intro x hx
    rcases List.mem_cons.mp hx with rfl | hx
    · exact edge_tgt_mem hr hc.1
    · exact ih b hc.2 x hx

/-- Acyclic resolvable chains are bounded by the number of tasks. -/
theorem chain_length_le {tasks : List TaskNode} (hnc : NoDepCycle tasks)
    (hr : Resolvable tasks) {a : String} {l : List String}
    (ha : a ∈ tasks.map (fun u => u.id)) (hc : List.Chain (depEdge tasks) a l) :
    l.length + 1 ≤ tasks.length := by
  classical
  have hnd : (a :: l).Nodup := chain_nodup hnc a l hc
  have hsub : (a :: l) ⊆ tasks.map (fun u => u.id) := by
    intro x hx
    rcases List.mem_cons.mp hx with rfl | hx
    · exact ha
    · exact chain_mem_ids hr a l hc x hx
  have hlen : (a :: l).length ≤ (tasks.map (fun u => u.id)).length := by
    calc (a :: l).length = (a :: l).toFinset.card := (List.toFinset_card_of_nodup hnd).symm
      _ ≤ (tasks.map (fun u => u.id)).toFinset.card := Finset.card_le_card (fun x hx => by
          simp only [List.mem_toFinset] at hx ⊢
          exact hsub hx)
      _ ≤ (tasks.map (fun u => u.id)).length := List.toFinset_card_le _
  simpa using hlen

/-! ## Option-monad and `foldl max` helper lemmas -/

/-- Unfolding of `List.mapM` over `Option` on a cons cell. -/
theorem optionMapM_cons {α β : Type} (f : α → Option β) (a : α) (l : List α) :
    (a :: l).mapM f = (f a).bind (fun b => (l.mapM f).bind (fun bs => some (b :: bs))) := by
  rw [← List.mapM'_eq_mapM, ← List.mapM'_eq_mapM]
  rfl

/-- `List.mapM` over `Option` succeeds exactly on pointwise successes. -/
theorem optionMapM_eq_some {α β : Type} {f : α → Option β} :
    ∀ {l : List α} {ys : List β},
      l.mapM f = some ys ↔ List.Forall₂ (fun x y => f x = some y) l ys := by
  intro l
  induction l with
  | nil =>
    intro ys
    constructor
    · intro h
      have h' : (some ([] : List β)) = some ys := h
      cases Option.some_inj.mp h'
      exact List.Forall₂.nil
    · intro h
      cases h
      rfl
  | cons a l ih =>
    intro ys
    rw [optionMapM_cons]
    constructor
    · intro h
      cases hfa : f a with
      | none => rw [hfa] at h; simp at h
      | some b =>
        rw [hfa] at h
        simp only [Option.some_bind] at h
        cases hml : l.mapM f with
        | none => rw [hml] at h; simp at h
        | some bs =>
          rw [hml] at h
          simp only [Option.some_bind, Option.some_inj] at h
          subst h
          exact List.Forall₂.cons hfa (ih.mp hml)
    · intro h
      cases h with
      | cons hfa hrest =>
        rw [hfa]
        simp only [Option.some_bind]
        rw [ih.mpr hrest]
        rfl

/-- Pointwise equal functions give equal `mapM` results. -/
theorem optionMapM_congr {α β : Type} {f g : α → Option β} :
    ∀ {l : List α}, (∀ x ∈ l, f x = g x) → l.mapM f = l.mapM g := by
  intro l
  induction l with
  | nil => intro _; rfl
  | cons a l ih =>
    intro h
    rw [optionMapM_cons, optionMapM_cons, h a (List.mem_cons_self _ _),
      ih (fun x hx => h x (List.mem_cons_of_mem a hx))]

/-- Pointwise success gives `mapM` success. -/
theorem optionMapM_isSome {α β : Type} {f : α → Option β} :
    ∀ {l : List α}, (∀ x ∈ l, (f x).isSome) → ∃ ys, l.mapM f = some ys := by
  intro l
  induction l with
  | nil => intro _; exact ⟨[], rfl⟩
  | cons a l ih =>
    intro h
    obtain ⟨b, hb⟩ := Option.isSome_iff_exists.mp (h a (List.mem_cons_self _ _))
    obtain ⟨bs, hbs⟩ := ih (fun x hx => h x (List.mem_cons_of_mem a hx))
    exact ⟨b :: bs, by rw [optionMapM_cons, hb, hbs]; rfl⟩

/-- A fold by `max` lands in the list or is the accumulator. -/
theorem foldlMax_mem_or_acc :
    ∀ (ws : List Nat) (acc : Nat), ws.foldl max acc ∈ ws ∨ ws.foldl max acc = acc := by
  intro ws
  induction ws with
  | nil => intro acc; exact Or.inr rfl
  | cons w ws ih =>
    intro acc
    rw [List.foldl_cons]
    rcases ih (max acc w) with h | h
    · exact Or.inl (List.mem_cons_of_mem w h)
    · rw [h]
      rcases Nat.le_total acc w with hle | hle
      · exact Or.inl (by simp [Nat.max_eq_right hle])
      · exact Or.inr (Nat.max_eq_left hle)

/-- A left fold by `max` from `0` lands in every nonempty `Nat` list. -/
theorem foldlMax_mem {ws : List Nat} (hne : ws ≠ []) : ws.foldl max 0 ∈ ws := by
  cases ws with
  | nil => exact absurd rfl hne
  | cons w ws =>
    rw [List.foldl_cons, Nat.max_eq_right (Nat.zero_le w)]
    rcases foldlMax_mem_or_acc ws w with h | h
    · exact List.mem_cons_of_mem w h
    · rw [h]
      exact List.mem_cons_self _ _

/-- The accumulator bounds the fold by `max` from below. -/
theorem foldlMax_acc_le : ∀ (ws : List Nat) (acc : Nat), acc ≤ ws.foldl max acc := by
  intro ws
  induction ws with
  | nil => intro acc; exact Nat.le_refl acc
  | cons w ws ih =>
    intro acc
    calc acc ≤ max acc w := Nat.le_max_left acc w
      _ ≤ (w :: ws).foldl max acc := by rw [List.foldl_cons]; exact ih _

/-- The fold by `max` bounds every member. -/
theorem foldlMax_le {ws : List Nat} {x : Nat} (hx : x ∈ ws) (acc : Nat) :
    x ≤ ws.foldl max acc := by
  induction ws generalizing acc with
  | nil => cases hx
  | cons w ws ih =>
    rcases List.mem_cons.mp hx with rfl | hx
    · calc x ≤ max acc x := Nat.le_max_right acc x
        _ ≤ (x :: ws).foldl max acc := by
          rw [List.foldl_cons]
          exact foldlMax_acc_le _ _
    · exact ih hx _

/-! ## Wave computation: fuel adequacy and the wave equation -/

/-- Unfolding of `waveF` at positive fuel. -/
theorem waveF_succ (tm : List (String × TaskNode)) (fuel : Nat) (id : String) :
    waveF tm (fuel + 1) id =
      (alistGet tm id).bind (fun t =>
        if t.dependsOn.isEmpty then some 0
        else (t.dependsOn.mapM (waveF tm fuel)).bind
          (fun ws => some (ws.foldl max 0 + 1))) := rfl

/-- Fuel adequacy and stability for `waveF`: when every dependency chain out
of `a` has at most `k` edges, fuel `k + 1` computes a wave for `a` and any
larger fuel computes the same wave. -/
theorem waveF_adequate {tasks : List TaskNode} {tm : List (String × TaskNode)}
    (hr : Resolvable tasks)
    (htm1 : ∀ {id t}, alistGet tm id = some t → t ∈ tasks ∧ t.id = id)
    (htm2 : ∀ {id}, id ∈ tasks.map (fun u => u.id) → (alistGet tm id).isSome) :
    ∀ (k : Nat) (a : String), a ∈ tasks.map (fun u => u.id) →
      (∀ l, List.Chain (depEdge tasks) a l → l.length ≤ k) →
      ∃ w, waveF tm (k + 1) a = some w ∧
        ∀ m, k + 1 ≤ m → waveF tm m a = some w := by
  intro k
  induction k using Nat.strong_induction_on with
  | _ k ih =>
    intro a ha hbound
    obtain ⟨t, ht⟩ := Option.isSome_iff_exists.mp (htm2 ha)
    obtain ⟨htmem, htid⟩ := htm1 ht
    cases hdl : t.dependsOn with
    | nil =>
      refine ⟨0, ?_, ?_⟩
      · rw [waveF_succ, ht]
        simp [hdl]
      · intro m hm
        obtain ⟨m', rfl⟩ : ∃ m', m = m' + 1 := ⟨m - 1, by omega⟩
        rw [waveF_succ, ht]
        simp [hdl]
    | cons d0 ds =>
      have hdeps : ¬t.dependsOn.isEmpty := by rw [hdl]; simp
      have hk1 : 1 ≤ k := by
        have h1 := hbound [d0] (by
          rw [List.chain_cons]
          exact ⟨⟨t, htmem, htid, by rw [hdl]; exact List.mem_cons_self _ _⟩,
            List.Chain.nil⟩)
        simpa using h1
      have hdep : ∀ d ∈ t.dependsOn,
          ∃ w, waveF tm k d = some w ∧ ∀ m, k ≤ m → waveF tm m d = some w := by
        intro d hd
        have hedge : depEdge tasks a d := ⟨t, htmem, htid, hd⟩
        have hdid : d ∈ tasks.map (fun u => u.id) := edge_tgt_mem hr hedge
        have hdbound : ∀ l, List.Chain (depEdge tasks) d l → l.length ≤ k - 1 := by
          intro l hl
          have hb := hbound (d :: l) (List.chain_cons.mpr ⟨hedge, hl⟩)
          simp only [List.length_cons] at hb
          omega
        obtain ⟨w, hw1, hw2⟩ := ih (k - 1) (by omega) d hdid hdbound
        have hkeq : k - 1 + 1 = k := by omega
        refine ⟨w, by rw [← hkeq]; exact hw1, ?_⟩
        intro m hm
        exact hw2 m (by omega)
      obtain ⟨ws, hws⟩ := optionMapM_isSome (f := waveF tm k) (l := t.dependsOn)
        (fun d hd => by obtain ⟨w, hw, _⟩ := hdep d hd; simp [hw])
      refine ⟨ws.foldl max 0 + 1, ?_, ?_⟩
      · rw [waveF_succ, ht]
        simp only [Option.some_bind]
        rw [if_neg hdeps, hws]
        rfl
      · intro m hm
        obtain ⟨m', rfl⟩ : ∃ m', m = m' + 1 := ⟨m - 1, by omega⟩
        rw [waveF_succ, ht]
        simp only [Option.some_bind]
        rw [if_neg hdeps]
        have hcongr : t.dependsOn.mapM (waveF tm m') = t.dependsOn.mapM (waveF tm k) := by
          refine optionMapM_congr (fun d hd => ?_)
          obtain ⟨w, hw1, hw2⟩ := hdep d hd
          rw [hw2 m' (by omega), hw1]
        rw [hcongr, hws]
        rfl

/-- Forall₂ projection to a left member. -/
theorem forall2_mem_left {α β : Type} {R : α → β → Prop} :
    ∀ {l : List α} {ys : List β}, List.Forall₂ R l ys → ∀ {x}, x ∈ l → ∃ y ∈ ys, R x y := by
  intro l ys h
  induction h with
  | nil => intro x hx; cases hx
  | cons hr _ ih =>
    intro x hx
    rcases List.mem_cons.mp hx with rfl | hx
    · exact ⟨_, List.mem_cons_self _ _, hr⟩
    · obtain ⟨y, hy, hxy⟩ := ih hx
      exact ⟨y, List.mem_cons_of_mem _ hy, hxy⟩

/-- Forall₂ projection to a right member. -/
theorem forall2_mem_right {α β : Type} {R : α → β → Prop} :
    ∀ {l : List α} {ys : List β}, List.Forall₂ R l ys → ∀ {y}, y ∈ ys → ∃ x ∈ l, R x y := by
  intro l ys h
  induction h with
  | nil => intro y hy; cases hy
  | cons hr _ ih =>
    intro y hy
    rcases List.mem_cons.mp hy with rfl | hy
    · exact ⟨_, List.mem_cons_self _ _, hr⟩
    · obtain ⟨x, hx, hxy⟩ := ih hy
      exact ⟨x, List.mem_cons_of_mem _ hx, hxy⟩

/-- The wave value `computeWaves` associates with an id: `waveF` at the fuel
`computeWaves` uses. -/
def taskWave (tasks : List TaskNode) (id : String) : Option Nat :=
  waveF (alistOf (tasks.map (fun t => (t.id, t)))) (tasks.length + 1) id

/-- On acyclic resolvable inputs every listed id has a wave, and every fuel
of at least `tasks.length` computes it. -/
theorem taskWave_spec {tasks : List TaskNode} (hr : Resolvable tasks)
    (hnc : NoDepCycle tasks) {a : String} (ha : a ∈ tasks.map (fun u => u.id)) :
    ∃ w, taskWave tasks a = some w ∧
      ∀ m, tasks.length ≤ m →
        waveF (alistOf (tasks.map (fun t => (t.id, t)))) m a = some w := by
  have hN : 1 ≤ tasks.length := by
    cases tasks with
    | nil => cases ha
    | cons t ts => simp
  have hbound : ∀ l, List.Chain (depEdge tasks) a l → l.length ≤ tasks.length - 1 := by
    intro l hl
    have := chain_length_le hnc hr ha hl
    omega
  obtain ⟨w, hw1, hw2⟩ := waveF_adequate hr
    (fun h => taskMapGet_some h) (fun h => taskMapGet_isSome h)
    (tasks.length - 1) a ha hbound
  have hkeq : tasks.length - 1 + 1 = tasks.length := by omega
  refine ⟨w, ?_, ?_⟩
  · exact hw2 (tasks.length + 1) (by omega)
  · intro m hm
    exact hw2 m (by omega)

/-- The wave equation: a task with no dependencies has wave `0`; otherwise
its wave is one more than the maximum of its dependencies' waves. -/
theorem taskWave_eq {tasks : List TaskNode} (hu : UniqueIds tasks)
    (hr : Resolvable tasks) (hnc : NoDepCycle tasks) {t : TaskNode} (ht : t ∈ tasks) :
    (t.dependsOn = [] → taskWave tasks t.id = some 0) ∧
    (t.dependsOn ≠ [] → ∃ ws, t.dependsOn.mapM (taskWave tasks) = some ws ∧
      taskWave tasks t.id = some (ws.foldl max 0 + 1)) := by
  have hget := taskMapGet_self hu ht
  constructor
  · intro hdl
    unfold taskWave
    rw [waveF_succ, hget]
    simp [hdl]
  · intro hdl
    have hdepw : ∀ d ∈ t.dependsOn, ∃ w, taskWave tasks d = some w ∧
        waveF (alistOf (tasks.map (fun u => (u.id, u)))) tasks.length d = some w := by
      intro d hd
      have hdid : d ∈ tasks.map (fun u => u.id) := hr t ht d hd
      obtain ⟨w, hw1, hw2⟩ := taskWave_spec hr hnc hdid
      exact ⟨w, hw1, hw2 tasks.length (Nat.le_refl _)⟩
    obtain ⟨ws, hws⟩ := optionMapM_isSome (f := taskWave tasks) (l := t.dependsOn)
      (fun d hd => by obtain ⟨w, hw, _⟩ := hdepw d hd; simp [hw])
    refine ⟨ws, hws, ?_⟩
    unfold taskWave
    rw [waveF_succ, hget]
    simp only [Option.some_bind]
    rw [if_neg (by simpa [List.isEmpty_iff] using hdl)]
    have hcongr : t.dependsOn.mapM
        (waveF (alistOf (tasks.map (fun u => (u.id, u)))) tasks.length) =
        t.dependsOn.mapM (taskWave tasks) := by
      refine optionMapM_congr (fun d hd => ?_)
      obtain ⟨w, hw1, hw2⟩ := hdepw d hd
      rw [hw1, hw2]
    rw [hcongr, hws]
    rfl

/-- A wave bounds the length of every chain out of its id. -/
theorem chain_le_wave {tasks : List TaskNode} (hu : UniqueIds tasks)
    (hr : Resolvable tasks) (hnc : NoDepCycle tasks) :
    ∀ (l : List String) (a : String), List.Chain (depEdge tasks) a l →
      ∀ w, taskWave tasks a = some w → l.length ≤ w := by
  intro l
  induction l with
  | nil => intro a _ w _; exact Nat.zero_le w
  | cons b l ih =>
    intro a hc w hw
    rw [List.chain_cons] at hc
    obtain ⟨⟨t, ht, htid, hb⟩, hcb⟩ := hc
    subst htid
    have hdl : t.dependsOn ≠ [] := fun h => by rw [h] at hb; cases hb
    obtain ⟨ws, hws, hwv⟩ := (taskWave_eq hu hr hnc ht).2 hdl
    rw [hw] at hwv
    have hweq : w = ws.foldl max 0 + 1 := by
      exact Option.some_inj.mp hwv
    have hbid : b ∈ tasks.map (fun u => u.id) := hr t ht b hb
    obtain ⟨wb, hwb, _⟩ := taskWave_spec hr hnc hbid
    have hwbmem : wb ∈ ws := by
      obtain ⟨y, hy, hxy⟩ := forall2_mem_left (optionMapM_eq_some.mp hws) hb
      rw [hwb] at hxy
      rw [Option.some_inj.mp hxy.symm] at hy
      exact hy
    have hlb := ih b hcb wb hwb
    have : wb ≤ ws.foldl max 0 := foldlMax_le hwbmem 0
    simp only [List.length_cons]
    omega

/-- Every wave is realised by a chain of that many edges. -/
theorem chain_of_wave {tasks : List TaskNode} (hu : UniqueIds tasks)
    (hr : Resolvable tasks) (hnc : NoDepCycle tasks) :
    ∀ (w : Nat) (a : String), a ∈ tasks.map (fun u => u.id) →
      taskWave tasks a = some w →
      ∃ l, List.Chain (depEdge tasks) a l ∧ l.length = w := by
  intro w
  induction w using Nat.strong_induction_on with
  | _ w ih =>
    intro a ha hw
    obtain ⟨t, ht, htid⟩ := List.mem_map.mp ha
    subst htid
    cases hdl : t.dependsOn with
    | nil =>
      have h0 := (taskWave_eq hu hr hnc ht).1 hdl
      rw [hw] at h0
      have : w = 0 := Option.some_inj.mp h0
      exact ⟨[], List.Chain.nil, by simp [this]⟩
    | cons d0 ds =>
      obtain ⟨ws, hws, hwv⟩ := (taskWave_eq hu hr hnc ht).2 (by rw [hdl]; simp)
      rw [hw] at hwv
      have hweq : w = ws.foldl max 0 + 1 := Option.some_inj.mp hwv
      have hwsne : ws ≠ [] := by
        intro h
        rw [h] at hws
        have hnil : t.dependsOn = [] := List.forall₂_nil_right_iff.mp
          (optionMapM_eq_some.mp hws)
        rw [hdl] at hnil
        cases hnil
      obtain ⟨d, hd, hdw⟩ := forall2_mem_right (optionMapM_eq_some.mp hws)
        (foldlMax_mem hwsne)
      have hdid : d ∈ tasks.map (fun u => u.id) := hr t ht d hd
      obtain ⟨l, hl, hllen⟩ := ih (ws.foldl max 0) (by omega) d hdid hdw
      refine ⟨d :: l, List.chain_cons.mpr ⟨⟨t, ht, rfl, hd⟩, hl⟩, by
        simp [hllen, hweq]⟩

/-! ## Consequences of a passing `validateDag` -/

/-- The duplicate scan is silent exactly on id lists disjoint from `seen`
and pairwise distinct. -/
theorem dupIdErrors_nil {tasks : List TaskNode} :
    ∀ {seen : List String}, dupIdErrors seen tasks = [] →
      (tasks.map (fun u => u.id)).Nodup ∧ ∀ x ∈ tasks.map (fun u => u.id), x ∉ seen := by
  induction tasks with
  | nil => intro seen _; exact ⟨List.nodup_nil, by simp⟩
  | cons t ts ih =>
    intro seen h
    unfold dupIdErrors at h
    rcases List.append_eq_nil.mp h with ⟨h1, h2⟩
    have hcont : t.id ∉ seen := by
      intro hc
      rw [if_pos (List.elem_iff.mpr hc)] at h1
      cases h1
    obtain ⟨hnd, hfresh⟩ := ih h2
    have hfresh' : ∀ x ∈ ts.map (fun u => u.id), x ≠ t.id ∧ x ∉ seen := by
      intro x hx
      have hns := hfresh x hx
      rw [List.mem_cons] at hns
      push_neg at hns
      exact hns
    rw [List.map_cons]
    refine ⟨List.nodup_cons.mpr ⟨fun hmem => (hfresh' t.id hmem).1 rfl, hnd⟩, ?_⟩
    intro x hx
    rcases List.mem_cons.mp hx with rfl | hx
    · exact hcont
    · exact (hfresh' x hx).2

/-- A passing validation has pairwise distinct ids. -/
theorem valid_uniqueIds {tasks : List TaskNode}
    (h : (validateDag tasks).valid = true) : UniqueIds tasks := by
  unfold validateDag at h
  simp only [List.isEmpty_iff] at h
  rcases List.append_eq_nil.mp h with ⟨h1, _⟩
  rcases List.append_eq_nil.mp h1 with ⟨hd, _⟩
  exact (dupIdErrors_nil hd).1

/-- A silent unknown-dependency scan means every dependency resolves. -/
theorem unknownDepErrors_nil {tasks : List TaskNode}
    (hu : unknownDepErrors tasks = []) : Resolvable tasks := by
  intro t ht d hd
  unfold unknownDepErrors at hu
  have hinner := List.flatMap_eq_nil_iff.mp hu t ht
  by_contra hmem
  have hv : ("Task \"" ++ t.id ++ "\" depends on unknown task \"" ++ d ++ "\"") ∈
      t.dependsOn.filterMap (fun dep =>
        if (tasks.map (fun u => u.id)).contains dep then none
        else some ("Task \"" ++ t.id ++ "\" depends on unknown task \"" ++ dep ++ "\"")) :=
    List.mem_filterMap.mpr ⟨d, hd, by
      rw [if_neg (fun hc => hmem (List.elem_iff.mp hc))]⟩
  rw [hinner] at hv
  cases hv

/-- A passing validation has only resolvable dependencies. -/
theorem valid_resolvable {tasks : List TaskNode}
    (h : (validateDag tasks).valid = true) : Resolvable tasks := by
  unfold validateDag at h
  simp only [List.isEmpty_iff] at h
  rcases List.append_eq_nil.mp h with ⟨h1, _⟩
  rcases List.append_eq_nil.mp h1 with ⟨_, hu⟩
  exact unknownDepErrors_nil hu

/-- Acyclicity follows from any rank function decreasing along dependency
edges (the usual witness for concrete inputs). -/
theorem noDepCycle_of_rank (tasks : List TaskNode) (rank : String → Nat)
    (h : ∀ t ∈ tasks, ∀ d ∈ t.dependsOn, rank d < rank t.id) : NoDepCycle tasks := by
  intro a hta
  have mono : ∀ x y, Relation.TransGen (depEdge tasks) x y → rank y < rank x := by
    intro x y h'
    induction h' with
    | single he =>
      obtain ⟨t, ht, rfl, hd⟩ := he
      exact h t ht _ hd
    | tail _ he ih =>
      obtain ⟨t, ht, rfl, hd⟩ := he
      exact lt_trans (h t ht _ hd) ih
  exact absurd (mono a a hta) (lt_irrefl _)

/-- Characterisation of `computeWaves` on nonempty validated acyclic input:
the groups are, for each wave index up to the maximum, the tasks of that
wave, in input order. -/
theorem computeWaves_char {tasks : List TaskNode} (hr : Resolvable tasks)
    (hnc : NoDepCycle tasks) (hne : tasks ≠ []) :
    ∃ ws, tasks.mapM (fun t => taskWave tasks t.id) = some ws ∧
      computeWaves tasks = some ((List.range (ws.foldl max 0 + 1)).map
        (fun w => tasks.filter (fun t => taskWave tasks t.id = some w))) := by
  obtain ⟨ws, hws⟩ := optionMapM_isSome (f := fun t => taskWave tasks t.id) (l := tasks)
    (fun t ht => by
      obtain ⟨w, hw, _⟩ := taskWave_spec hr hnc (List.mem_map_of_mem _ ht)
      simp [hw])
  refine ⟨ws, hws, ?_⟩
  have hwsF : tasks.mapM
      (fun t => waveF (alistOf (tasks.map (fun u => (u.id, u)))) (tasks.length + 1) t.id)
      = some ws := hws
  have hie : tasks.isEmpty = false := by
    cases tasks with
    | nil => exact absurd rfl hne
    | cons t ts => rfl
  unfold computeWaves
  simp only [hwsF, hie, Option.some_bind, Bool.false_eq_true, if_false]
  rfl

/-- A task's wave value is listed in the `mapM` output. -/
theorem taskWave_mem_ws {tasks : List TaskNode} {ws : List Nat}
    (hws : tasks.mapM (fun t => taskWave tasks t.id) = some ws)
    {t : TaskNode} (ht : t ∈ tasks) {w : Nat} (hw : taskWave tasks t.id = some w) :
    w ∈ ws := by
  obtain ⟨y, hy, hxy⟩ := forall2_mem_left (optionMapM_eq_some.mp hws) ht
  rw [hw] at hxy
  cases Option.some_inj.mp hxy
  exact hy

/-- C6. For every task list that `validateDag` accepts and whose dependency
relation is acyclic, `computeWaves` succeeds and partitions the tasks: each
task lies in exactly the group indexed by its wave; that index is `0` for
tasks without dependencies and one plus the maximum of the dependencies'
indices otherwise; and the number of groups is exactly the length (in tasks)
of the longest dependency chain. -/
theorem validateDag_accepts_computeWaves_spec (tasks : List TaskNode)
    (hvalid : (validateDag tasks).valid = true) (hnc : NoDepCycle tasks) :
    ∃ waves, computeWaves tasks = some waves ∧
      (∀ t ∈ tasks, ∃ w, taskWave tasks t.id = some w ∧
        ∀ i (hi : i < waves.length), (t ∈ waves.get ⟨i, hi⟩ ↔ i = w)) ∧
      (∀ t ∈ tasks,
        (t.dependsOn = [] → taskWave tasks t.id = some 0) ∧
        (t.dependsOn ≠ [] → ∃ dws, t.dependsOn.mapM (taskWave tasks) = some dws ∧
          taskWave tasks t.id = some (dws.foldl max 0 + 1))) ∧
      ((tasks = [] → waves = []) ∧
        (tasks ≠ [] →
          (∃ a l, a ∈ tasks.map (fun u => u.id) ∧ List.Chain (depEdge tasks) a l ∧
            l.length + 1 = waves.length) ∧
          (∀ a l, a ∈ tasks.map (fun u => u.id) → List.Chain (depEdge tasks) a l →
            l.length + 1 ≤ waves.length))) := by
  have hu := valid_uniqueIds hvalid
  have hr := valid_resolvable hvalid
  by_cases hne : tasks = []
  · subst hne
    exact ⟨[], rfl, fun t ht => absurd ht (by simp), fun t ht => absurd ht (by simp),
      fun _ => rfl, fun h => absurd rfl h⟩
  · obtain ⟨ws, hws, hcw⟩ := computeWaves_char hr hnc hne
    refine ⟨_, hcw, ?_, fun t ht => taskWave_eq hu hr hnc ht, ?_, ?_⟩
    · -- partition
      intro t ht
      obtain ⟨w, hw, _⟩ := taskWave_spec hr hnc (List.mem_map_of_mem _ ht)
      have hwmem : w ∈ ws := taskWave_mem_ws hws ht hw
      refine ⟨w, hw, ?_⟩
      intro i hi
      have hil : i < ws.foldl max 0 + 1 := by
        simpa using hi
      have hget : (((List.range (ws.foldl max 0 + 1)).map
          (fun v => tasks.filter (fun u => taskWave tasks u.id = some v))).get ⟨i, hi⟩)
          = tasks.filter (fun u => taskWave tasks u.id = some i) := by
        simp
      rw [hget]
      constructor
      · intro hmem
        have hdec := (List.mem_filter.mp hmem).2
        have : taskWave tasks t.id = some i := of_decide_eq_true hdec
        rw [hw] at this
        exact (Option.some_inj.mp this).symm
      · intro hiw
        subst hiw
        exact List.mem_filter.mpr ⟨ht, decide_eq_true hw⟩
    · exact fun h => absurd h hne
    · intro _
      have hwsne : ws ≠ [] := by
        intro h
        rw [h] at hws
        have hnil : tasks = [] := List.forall₂_nil_right_iff.mp (optionMapM_eq_some.mp hws)
        exact hne hnil
      constructor
      · -- a longest chain is realised
        obtain ⟨t, ht, htw⟩ := forall2_mem_right (optionMapM_eq_some.mp hws)
          (foldlMax_mem hwsne)
        obtain ⟨l, hl, hllen⟩ := chain_of_wave hu hr hnc (ws.foldl max 0) t.id
          (List.mem_map_of_mem _ ht) htw
        refine ⟨t.id, l, List.mem_map_of_mem _ ht, hl, ?_⟩
        simp [hllen]
      · -- every chain is bounded
        intro a l ha hc
        obtain ⟨w, hw, _⟩ := taskWave_spec hr hnc ha
        have hlw := chain_le_wave hu hr hnc l a hc w hw
        obtain ⟨t, ht, htid⟩ := List.mem_map.mp ha
        have hwmem : w ∈ ws := taskWave_mem_ws hws ht (htid ▸ hw)
        have hwM : w ≤ ws.foldl max 0 := foldlMax_le hwmem 0
        simp only [List.length_map, List.length_range]
        omega

/-- Concrete two-task chain used as a witness input. -/
def wTasks : List TaskNode := [mkTask "t1" [], mkTask "t2" ["t1"]]

/-- Concrete rank function witnessing acyclicity of `wTasks`. -/
def wRank : String → Nat := fun id => if id = "t2" then 1 else 0

/-- The hypotheses of the `computeWaves` specification hold at a concrete
input on which the conclusion then evaluates. -/
theorem validateDag_accepts_computeWaves_spec_witness :
    (validateDag wTasks).valid = true ∧ NoDepCycle wTasks ∧
      (computeWaves wTasks).isSome := by
  have h1 : (validateDag wTasks).valid = true := by decide
  have h2 : NoDepCycle wTasks := noDepCycle_of_rank wTasks wRank (by decide)
  refine ⟨h1, h2, ?_⟩
  obtain ⟨waves, hcw, _⟩ := validateDag_accepts_computeWaves_spec wTasks h1 h2
  simp [hcw]

/-! ## Claim theorems -/

/-- C4. Evaluation of `validateDag` at a task that depends on itself: the
self-loop — a cycle — is accepted with no errors, because `detectCycles`
only reports strongly connected components of size greater than one, while
the specified behaviour (and the docstring "empty if acyclic") requires the
cycle to be reported. -/
theorem validateDag_selfLoop_eval :
    validateDag [⟨"t1", "Task t1", "Self-referential task", ["src"], ["t1"],
        Complexity.small⟩] = ⟨true, []⟩ ∧
      detectCycles [⟨"t1", "Task t1", "Self-referential task", ["src"], ["t1"],
        Complexity.small⟩] = [] := by
  exact ⟨by decide, by decide⟩

/-- C10. When at least one task has completed but every completed task has a
null `branchName`, `runIntegration` fails with "No completed tasks to
integrate", marks the integration sub-state and phase failed, and creates no
session. -/
theorem runIntegration_null_branch_fails (st : ProjectState) (env : IntegEnv)
    (hc : ∃ p ∈ st.tasks, p.2.status = TaskStatus.completed)
    (hb : ∀ p ∈ st.tasks, p.2.status = TaskStatus.completed → p.2.branchName = none) :
    ∃ st', runIntegrationModel st env =
        some (st', Except.error "No completed tasks to integrate", false) ∧
      st'.integration.status = SubStatus.failed ∧
      st'.integration.error = some "No completed tasks to integrate" ∧
      st'.phase = ProjectPhase.failed := by
  have hfil : (st.tasks.map Prod.snd).filter
      (fun t => t.status = TaskStatus.completed ∧ strTruthy t.branchName) = [] := by
    rw [List.filter_eq_nil_iff]
    intro e he
    obtain ⟨p, hp, hpe⟩ := List.mem_map.mp he
    intro hdec
    obtain ⟨hst, htr⟩ := of_decide_eq_true hdec
    have hnone := hb p hp (by rw [hpe]; exact hst)
    rw [hpe] at hnone
    rw [hnone] at htr
    cases htr
  have hct : completedTasksOf (integStart st) = some [] := by
    unfold completedTasksOf
    have htasks : (integStart st).tasks = st.tasks := rfl
    rw [htasks, hfil]
    rfl
  refine ⟨{ integStart st with integration := { (integStart st).integration with status := SubStatus.failed, error := some "No completed tasks to integrate" }, phase := ProjectPhase.failed }, ?_, rfl, rfl, rfl⟩
  simp only [runIntegrationModel, hct]

/-- A concrete state with one completed task that has no branch name. -/
def c10State : ProjectState :=
  { id := "p1", createdAt := 0, updatedAt := 0, goal := "demo",
    repoOwner := "acme", repoName := "widget", phase := ProjectPhase.executing,
    planning := ⟨none, "m", SubStatus.completed, none⟩,
    plan := some ⟨"plan", []⟩,
    tasks := [("a", ⟨"a", TaskStatus.completed, none, none, none, none, none, none, 0⟩)],
    integration := ⟨none, SubStatus.pending, none, none, none⟩ }

/-- A concrete integration environment (never consulted on the failing path). -/
def c10Env : IntegEnv := ⟨"s", ⟨false, "stopped", none⟩, []⟩

/-- The hypotheses of the branchless-completion failure hold at a concrete
state, and integration then fails without a session. -/
theorem runIntegration_null_branch_fails_witness :
    (∃ p ∈ c10State.tasks, p.2.status = TaskStatus.completed) ∧
      (∀ p ∈ c10State.tasks, p.2.status = TaskStatus.completed →
        p.2.branchName = none) ∧
      (runIntegrationModel c10State c10Env).map (fun r => r.1.phase)
        = some ProjectPhase.failed := by
  have h1 : ∃ p ∈ c10State.tasks, p.2.status = TaskStatus.completed := by decide
  have h2 : ∀ p ∈ c10State.tasks, p.2.status = TaskStatus.completed →
      p.2.branchName = none := by decide
  obtain ⟨st', hrun, _, _, hph⟩ := runIntegration_null_branch_fails c10State c10Env h1 h2
  refine ⟨h1, h2, ?_⟩
  rw [hrun]
  simp [hph]

/-- A concrete state with two completed branches, forcing the merge-session
path of `runIntegration`. -/
def c2State : ProjectState :=
  { id := "p2", createdAt := 0, updatedAt := 0, goal := "demo",
    repoOwner := "acme", repoName := "widget", phase := ProjectPhase.executing,
    planning := ⟨none, "m", SubStatus.completed, none⟩,
    plan := some ⟨"plan", []⟩,
    tasks :=
      [("a", ⟨"a", TaskStatus.completed, some "s1", some "oi/a-x", none, none, none, none, 0⟩),
        ("b", ⟨"b", TaskStatus.completed, some "s2", some "oi/b-y", none, none, none, none, 0⟩)],
    integration := ⟨none, SubStatus.pending, none, none, none⟩ }

/-- An environment whose artifact list holds exactly one artifact of type
`"pull request"` carrying a URL. -/
def c2Env : IntegEnv :=
  ⟨"sess-int", ⟨false, "stopped", some "oi/merge"⟩,
    [⟨"pull request", some "https://example.com/pull/1"⟩]⟩

/-- C2 counterexample. With exactly one artifact of type `"pull request"`
with a URL, `runIntegration` completes but stores no `prUrl`: the code
matches artifact type `"pr"`, not `"pull request"`, so the claimed URL
`https://example.com/pull/1` is not recorded. -/
theorem runIntegration_pull_request_artifact_counterexample :
    (runIntegrationModel c2State c2Env).map
        (fun r => (r.1.integration.prUrl, r.1.integration.mergedBranch, r.1.phase))
      = some (none, some "oi/merge", ProjectPhase.completed) ∧
    (none : Option String) ≠ some "https://example.com/pull/1" := by
  exact ⟨by decide, by decide⟩

/-- `Array.find` semantics: the first match of the predicate. -/
theorem find?_append_first {α : Type} {p : α → Bool} {l1 l2 : List α} {a : α}
    (h1 : ∀ x ∈ l1, p x = false) (ha : p a = true) :
    (l1 ++ a :: l2).find? p = some a := by
  induction l1 with
  | nil => simp [List.find?_cons, ha]
  | cons x l1 ih =>
    rw [List.cons_append, List.find?_cons, h1 x (List.mem_cons_self _ _)]
    exact ih (fun y hy => h1 y (List.mem_cons_of_mem x hy))

/-- C2 amended. When the integration poll completes with at least two
completed tasks and the artifact list contains exactly one artifact of type
`"pr"` with a truthy URL, that URL is stored in `integration.prUrl` and
returned, the session's branch name is stored in `integration.mergedBranch`,
and the phase is set to `completed`. -/
theorem runIntegration_pr_artifact_spec (st : ProjectState) (env : IntegEnv)
    (c1 c2 : CompletedTask) (cs : List CompletedTask)
    (hcs : completedTasksOf (integStart st) = some (c1 :: c2 :: cs))
    (a : SessionArtifact) (l1 l2 : List SessionArtifact)
    (hart : env.artifacts = l1 ++ a :: l2)
    (hpa : a.type = "pr" ∧ strTruthy a.url)
    (hone : ∀ x ∈ l1 ++ l2, ¬(x.type = "pr" ∧ strTruthy x.url)) :
    ∃ st', runIntegrationModel st env =
        some (st', Except.ok ⟨env.finalSession.branchName, a.url⟩, true) ∧
      st'.integration.prUrl = a.url ∧
      st'.integration.mergedBranch = env.finalSession.branchName ∧
      st'.integration.status = SubStatus.completed ∧
      st'.phase = ProjectPhase.completed := by
  have hfind : env.artifacts.find? (fun x => x.type = "pr" ∧ strTruthy x.url) = some a := by
    rw [hart]
    refine find?_append_first (fun x hx => ?_) (by
      exact decide_eq_true hpa)
    have hnx := hone x (List.mem_append_left _ hx)
    exact decide_eq_false hnx
  refine ⟨{ integStart st with integration := { (integStart st).integration with sessionId := some env.sessionId, status := SubStatus.completed, mergedBranch := env.finalSession.branchName, prUrl := a.url }, phase := ProjectPhase.completed }, ?_, rfl, rfl, rfl, rfl⟩
  simp only [runIntegrationModel, hcs, hfind]

/-- An environment holding exactly one `"pr"`-typed artifact with a URL,
after a non-matching artifact. -/
def c2wEnv : IntegEnv :=
  ⟨"sess-int", ⟨false, "stopped", some "oi/merge"⟩,
    [⟨"log", none⟩, ⟨"pr", some "https://example.com/pull/2"⟩]⟩

/-- The hypotheses of the `"pr"`-artifact specification hold at a concrete
input, where the URL is then recorded. -/
theorem runIntegration_pr_artifact_spec_witness :
    completedTasksOf (integStart c2State)
        = some [⟨"a", "a", "", "oi/a-x"⟩, ⟨"b", "b", "", "oi/b-y"⟩] ∧
      c2wEnv.artifacts
        = [⟨"log", none⟩] ++ (⟨"pr", some "https://example.com/pull/2"⟩ : SessionArtifact)
            :: [] ∧
      ((⟨"pr", some "https://example.com/pull/2"⟩ : SessionArtifact).type = "pr" ∧
        strTruthy (⟨"pr", some "https://example.com/pull/2"⟩ : SessionArtifact).url) ∧
      (∀ x ∈ [(⟨"log", none⟩ : SessionArtifact)] ++ ([] : List SessionArtifact),
        ¬(x.type = "pr" ∧ strTruthy x.url)) ∧
      (runIntegrationModel c2State c2wEnv).map (fun r => r.1.integration.prUrl)
        = some (some "https://example.com/pull/2") := by
  have h1 : completedTasksOf (integStart c2State)
      = some [⟨"a", "a", "", "oi/a-x"⟩, ⟨"b", "b", "", "oi/b-y"⟩] := by decide
  have h2 : c2wEnv.artifacts
      = [⟨"log", none⟩] ++ (⟨"pr", some "https://example.com/pull/2"⟩ : SessionArtifact)
        :: [] := rfl
  have h3 : (⟨"pr", some "https://example.com/pull/2"⟩ : SessionArtifact).type = "pr" ∧
      strTruthy (⟨"pr", some "https://example.com/pull/2"⟩ : SessionArtifact).url := by
    decide
  have h4 : ∀ x ∈ [(⟨"log", none⟩ : SessionArtifact)] ++ ([] : List SessionArtifact),
      ¬(x.type = "pr" ∧ strTruthy x.url) := by decide
  obtain ⟨st', hrun, hpr, _, _, _⟩ := runIntegration_pr_artifact_spec c2State c2wEnv
    ⟨"a", "a", "", "oi/a-x"⟩ ⟨"b", "b", "", "oi/b-y"⟩ [] h1
    ⟨"pr", some "https://example.com/pull/2"⟩ [⟨"log", none⟩] [] h2 h3 h4
  refine ⟨h1, h2, h3, h4, ?_⟩
  rw [hrun]
  simp [hpr]

/-- Plan used by the scheduler evaluation: task `b` depends on task `a`. -/
def c1Plan : Plan := ⟨"two tasks", [mkTask "a" [], mkTask "b" ["a"]]⟩

/-- A fresh execution record with the given status. -/
def c1Exec (id : String) (st : TaskStatus) : TaskExecution :=
  ⟨id, st, none, none, none, none, none, none, 0⟩

/-- Resume-time tasks map: `a` was skipped, `b` is still pending. -/
def c1Tasks : List (String × TaskExecution) :=
  [("a", c1Exec "a" TaskStatus.skipped), ("b", c1Exec "b" TaskStatus.pending)]

/-- A scheduler environment whose spawns succeed. -/
def c1Env : ExecEnv :=
  ⟨fun _ => SpawnRes.ok "sess-1", 1000, fun _ => false,
    fun _ => ⟨false, "running", none⟩, fun _ => []⟩

/-- C1. Evaluation of the scheduler's readiness and one loop iteration at a
state whose only pending task depends on a `skipped` task: the task is
selected as ready and spawned to `running`, although its dependency was
never completed — the readiness filter accepts `skipped` dependencies,
contradicting the documented "all deps completed" rule. -/
theorem scheduler_ready_skipped_dep_eval :
    (readyOf c1Plan c1Tasks).map (fun l => l.map (fun et => et.1.taskId))
        = some ["b"] ∧
      (execStep c1Plan 3 c1Env c1Tasks).map
          (fun r => (alistGet r.1 "b").map (fun e => e.status))
        = some (some TaskStatus.running) ∧
      (alistGet c1Tasks "a").map (fun e => e.status) = some TaskStatus.skipped := by
  refine ⟨by decide, by decide, by decide⟩

/-! ## Failure surfacing in the poll loops -/

/-- A failure indication in an event: a failed `execution_complete` carrying
an error message, or an `error` event carrying one. -/
def FailSignal (ev : AgentEvent) : Prop :=
  (ev.type = "execution_complete" ∧ ev.success = some false ∧ strTruthy ev.error) ∨
    (ev.type = "error" ∧ strTruthy ev.error)

/-- One planner scan step leaves `seen` alone or pushes the event id. -/
theorem plannerScanStep_seen (s : PollAcc × Bool × Option String) (ev : AgentEvent) :
    (plannerScanStep s ev).1.seen = s.1.seen ∨
      (plannerScanStep s ev).1.seen = ev.id :: s.1.seen := by
  by_cases h : s.1.seen.contains ev.id
  · left
    simp only [plannerScanStep, if_pos h]
  · right
    simp only [plannerScanStep, if_neg h]
    split_ifs <;> rfl

/-- One planner scan step preserves a latched `executionComplete`. -/
theorem plannerScanStep_ec_mono {s : PollAcc × Bool × Option String} {ev : AgentEvent}
    (h : s.2.1 = true) : (plannerScanStep s ev).2.1 = true := by
  by_cases hc : s.1.seen.contains ev.id
  · simp only [plannerScanStep, if_pos hc]
    exact h
  · simp only [plannerScanStep, if_neg hc]
    split_ifs <;> simp [h]

/-- One planner scan step preserves a truthy error message. -/
theorem plannerScanStep_err_mono {s : PollAcc × Bool × Option String} {ev : AgentEvent}
    (h : strTruthy s.2.2) : strTruthy (plannerScanStep s ev).2.2 := by
  by_cases hc : s.1.seen.contains ev.id
  · simp only [plannerScanStep, if_pos hc]
    exact h
  · simp only [plannerScanStep, if_neg hc]
    split_ifs <;> first
      | exact h
      | (rename_i hh; exact hh.2)
      | (rename_i hh; exact hh.2.2)

/-- A fresh `execution_complete` event latches the completion flag. -/
theorem plannerScanStep_sets_ec {s : PollAcc × Bool × Option String} {ev : AgentEvent}
    (hfresh : ev.id ∉ s.1.seen) (ht : ev.type = "execution_complete") :
    (plannerScanStep s ev).2.1 = true := by
  have hc : ¬s.1.seen.contains ev.id = true := fun h => hfresh (List.elem_iff.mp h)
  simp [plannerScanStep, if_neg hc, ht, hfresh]

/-- A fresh failure event leaves a truthy error message. -/
theorem plannerScanStep_sets_err {s : PollAcc × Bool × Option String} {ev : AgentEvent}
    (hfresh : ev.id ∉ s.1.seen) (hf : FailSignal ev) :
    strTruthy (plannerScanStep s ev).2.2 := by
  have hc : ¬s.1.seen.contains ev.id = true := fun h => hfresh (List.elem_iff.mp h)
  simp only [plannerScanStep, if_neg hc]
  rcases hf with ⟨ht, hs, htr⟩ | ⟨ht, htr⟩
  · have hne : ¬(ev.type = "error" ∧ strTruthy ev.error = true) := by
      rw [ht]; simp
    rw [if_neg hne, if_pos ⟨ht, hs, htr⟩]
    exact htr
  · rw [if_pos ⟨ht, htr⟩]
    exact htr

/-- Folded planner scan: an `execution_complete` among fresh, distinct
events (or an already latched flag) yields a latched flag. -/
theorem plannerScan_fold_ec :
    ∀ (events : List AgentEvent) (s : PollAcc × Bool × Option String),
      (∀ ev ∈ events, ev.id ∉ s.1.seen) → (events.map (fun e => e.id)).Nodup →
      ((∃ ev ∈ events, ev.type = "execution_complete") ∨ s.2.1 = true) →
      (events.foldl plannerScanStep s).2.1 = true := by
  intro events
  induction events with
  | nil =>
    intro s _ _ h
    rcases h with ⟨ev, hev, _⟩ | h
    · cases hev
    · exact h
  | cons ev rest ih =>
    intro s hfresh hnd hcond
    rw [List.foldl_cons]
    have hfresh_ev : ev.id ∉ s.1.seen := hfresh ev (List.mem_cons_self _ _)
    have hrest_fresh : ∀ e ∈ rest, e.id ∉ (plannerScanStep s ev).1.seen := by
      intro e he
      rcases plannerScanStep_seen s ev with hs | hs
      · rw [hs]; exact hfresh e (List.mem_cons_of_mem _ he)
      · rw [hs]
        intro hmem
        rcases List.mem_cons.mp hmem with heq | hmem'
        · rw [List.map_cons, List.nodup_cons] at hnd
          exact hnd.1 (heq ▸ List.mem_map_of_mem _ he)
        · exact hfresh e (List.mem_cons_of_mem _ he) hmem'
    have hnd' : (rest.map (fun e => e.id)).Nodup := by
      rw [List.map_cons, List.nodup_cons] at hnd
      exact hnd.2
    rcases hcond with ⟨w, hw, hwt⟩ | htrue
    · rcases List.mem_cons.mp hw with rfl | hw'
      · exact ih _ hrest_fresh hnd' (Or.inr (plannerScanStep_sets_ec hfresh_ev hwt))
      · exact ih _ hrest_fresh hnd' (Or.inl ⟨w, hw', hwt⟩)
    · exact ih _ hrest_fresh hnd' (Or.inr (plannerScanStep_ec_mono htrue))

/-- Folded planner scan: a failure signal among fresh, distinct events (or
an already truthy message) yields a truthy error message. -/
theorem plannerScan_fold_err :
    ∀ (events : List AgentEvent) (s : PollAcc × Bool × Option String),
      (∀ ev ∈ events, ev.id ∉ s.1.seen) → (events.map (fun e => e.id)).Nodup →
      ((∃ ev ∈ events, FailSignal ev) ∨ strTruthy s.2.2 = true) →
      strTruthy (events.foldl plannerScanStep s).2.2 = true := by
  intro events
  induction events with
  | nil =>
    intro s _ _ h
    rcases h with ⟨ev, hev, _⟩ | h
    · cases hev
    · exact h
  | cons ev rest ih =>
    intro s hfresh hnd hcond
    rw [List.foldl_cons]
    have hfresh_ev : ev.id ∉ s.1.seen := hfresh ev (List.mem_cons_self _ _)
    have hrest_fresh : ∀ e ∈ rest, e.id ∉ (plannerScanStep s ev).1.seen := by
      intro e he
      rcases plannerScanStep_seen s ev with hs | hs
      · rw [hs]; exact hfresh e (List.mem_cons_of_mem _ he)
      · rw [hs]
        intro hmem
        rcases List.mem_cons.mp hmem with heq | hmem'
        · rw [List.map_cons, List.nodup_cons] at hnd
          exact hnd.1 (heq ▸ List.mem_map_of_mem _ he)
        · exact hfresh e (List.mem_cons_of_mem _ he) hmem'
    have hnd' : (rest.map (fun e => e.id)).Nodup := by
      rw [List.map_cons, List.nodup_cons] at hnd
      exact hnd.2
    rcases hcond with ⟨w, hw, hwt⟩ | htrue
    · rcases List.mem_cons.mp hw with rfl | hw'
      · exact ih _ hrest_fresh hnd' (Or.inr (plannerScanStep_sets_err hfresh_ev hwt))
      · exact ih _ hrest_fresh hnd' (Or.inl ⟨w, hw', hwt⟩)
    · exact ih _ hrest_fresh hnd' (Or.inr (plannerScanStep_err_mono htrue))

/-- The integration phase's poll loop can only keep polling or succeed. -/
theorem integratorPollGo_no_error :
    ∀ (cycles : List PollCycle) (acc : PollAcc) (e : String),
      integratorPollGo cycles acc ≠ some (Except.error e) := by
  intro cycles
  induction cycles with
  | nil => intro acc e h; cases h
  | cons cy rest ih =>
    intro acc e h
    simp only [integratorPollGo] at h
    split at h
    all_goals
      split at h
      · simp at h
      · split at h
        · simp at h
        · exact ih _ e h

/-- A single-cycle window with a failed `execution_complete`. -/
def c3FailCycle : PollCycle :=
  ⟨⟨false, "running", none⟩,
    [⟨"e1", "execution_complete", none, some false, some "merge failed"⟩]⟩

/-- C3 counterexample. The integration phase's poll loop treats a stream
whose `execution_complete` reports `success = false` with an error message
as a successful completion: it returns normally instead of surfacing the
failure. -/
theorem integratorPoll_ignores_failure_counterexample :
    integratorPoll [c3FailCycle] = some (Except.ok "") ∧
      FailSignal ⟨"e1", "execution_complete", none, some false, some "merge failed"⟩ := by
  refine ⟨rfl, Or.inl ⟨rfl, rfl, by decide⟩⟩

/-- C3 amended. Failure events are surfaced only by the planner's poll loop,
and only when a failure message and an `execution_complete` arrive within
the same polling cycle: the planner then raises, while the integration
phase's poll loop never raises at all. -/
theorem poll_failure_surfacing_spec :
    (∀ (cycles : List PollCycle) (e : String),
      integratorPoll cycles ≠ some (Except.error e)) ∧
    (∀ (sess : SessionSnapshot) (events : List AgentEvent),
      (events.map (fun e => e.id)).Nodup →
      (∃ ev ∈ events, ev.type = "execution_complete") →
      (∃ ev ∈ events, FailSignal ev) →
      ∃ msg, plannerPoll [⟨sess, events⟩] = some (Except.error msg)) := by
  constructor
  · intro cycles e
    exact integratorPollGo_no_error cycles _ e
  · intro sess events hnd hec hfail
    show ∃ msg, plannerPollGo [⟨sess, events⟩] ⟨[], [], false⟩ = some (Except.error msg)
    dsimp only [plannerPollGo, plannerScan]
    cases hproc : sess.isProcessing with
    | true =>
      rw [if_pos rfl]
      have hec' := plannerScan_fold_ec events
        (({ (⟨[], [], false⟩ : PollAcc) with hasStarted := true }), false, none)
        (by intro ev _ hmem; cases hmem) hnd (Or.inl hec)
      have herr' := plannerScan_fold_err events
        (({ (⟨[], [], false⟩ : PollAcc) with hasStarted := true }), false, none)
        (by intro ev _ hmem; cases hmem) hnd (Or.inl hfail)
      rw [if_pos hec', if_pos herr']
      exact ⟨_, rfl⟩
    | false =>
      rw [if_neg Bool.false_ne_true]
      have hec' := plannerScan_fold_ec events ((⟨[], [], false⟩ : PollAcc), false, none)
        (by intro ev _ hmem; cases hmem) hnd (Or.inl hec)
      have herr' := plannerScan_fold_err events ((⟨[], [], false⟩ : PollAcc), false, none)
        (by intro ev _ hmem; cases hmem) hnd (Or.inl hfail)
      rw [if_pos hec', if_pos herr']
      exact ⟨_, rfl⟩

/-- A single-cycle window carrying both a failed `execution_complete` and an
`error` event, with distinct ids. -/
def c3wEvents : List AgentEvent :=
  [⟨"e1", "token", some "working", none, none⟩,
    ⟨"e2", "error", none, none, some "compile error"⟩,
    ⟨"e3", "execution_complete", none, some false, some "tests failed"⟩]

/-- The hypotheses of the failure-surfacing specification hold at a concrete
window, on which the planner's loop then raises. -/
theorem poll_failure_surfacing_spec_witness :
    (c3wEvents.map (fun e => e.id)).Nodup ∧
      (∃ ev ∈ c3wEvents, ev.type = "execution_complete") ∧
      (∃ ev ∈ c3wEvents, FailSignal ev) ∧
      (∃ msg, plannerPoll [⟨⟨true, "running", none⟩, c3wEvents⟩]
        = some (Except.error msg)) ∧
      (∀ e, integratorPoll [⟨⟨true, "running", none⟩, c3wEvents⟩]
        ≠ some (Except.error e)) := by
  have h1 : (c3wEvents.map (fun e => e.id)).Nodup := by decide
  have h2 : ∃ ev ∈ c3wEvents, ev.type = "execution_complete" := by
    refine ⟨⟨"e3", "execution_complete", none, some false, some "tests failed"⟩, by decide, rfl⟩
  have h3 : ∃ ev ∈ c3wEvents, FailSignal ev := by
    refine ⟨⟨"e2", "error", none, none, some "compile error"⟩, by decide,
      Or.inr ⟨rfl, by decide⟩⟩
  refine ⟨h1, h2, h3, ?_, ?_⟩
  · exact poll_failure_surfacing_spec.2 ⟨true, "running", none⟩ c3wEvents h1 h2 h3
  · intro e
    exact poll_failure_surfacing_spec.1 [⟨⟨true, "running", none⟩, c3wEvents⟩] e

/-! ## Retry loop lemmas -/

/-- The retry loop's trace is a consecutive run of attempt indices starting
at the current attempt, no longer than the remaining budget. -/
theorem retryGo_trace {E A : Type} (ops : Nat → Except E A) (abort : E → Bool) :
    ∀ (rem attempt : Nat) (lastErr : Option E),
      ∃ k, k ≤ rem ∧ (retryGo ops abort attempt rem lastErr).1 = List.range' attempt k := by
  intro rem
  induction rem with
  | zero => intro attempt lastErr; exact ⟨0, Nat.le_refl 0, rfl⟩
  | succ rem ih =>
    intro attempt lastErr
    unfold retryGo
    cases hop : ops attempt with
    | ok a => exact ⟨1, by omega, by simp [List.range'_succ]⟩
    | error e =>
      by_cases hab : abort e
      · exact ⟨1, by omega, by simp [hab, List.range'_succ]⟩
      · obtain ⟨k, hk, htr⟩ := ih (attempt + 1) (some e)
        refine ⟨k + 1, by omega, ?_⟩
        simp only [hab, Bool.false_eq_true, if_false]
        rw [List.range'_succ]
        simp [htr]

/-- The retry loop stops at the first successful attempt and returns its
result. -/
theorem retryGo_success {E A : Type} (ops : Nat → Except E A) (abort : E → Bool) :
    ∀ (rem attempt i : Nat) (a : A) (lastErr : Option E),
      attempt ≤ i → i < attempt + rem →
      (∀ j, attempt ≤ j → j < i → ∃ e, ops j = Except.error e ∧ abort e = false) →
      ops i = Except.ok a →
      retryGo ops abort attempt rem lastErr
        = (List.range' attempt (i - attempt + 1), Except.ok a) := by
  intro rem
  induction rem with
  | zero => intro attempt i a lastErr h1 h2 _ _; omega
  | succ rem ih =>
    intro attempt i a lastErr h1 h2 hfail hok
    unfold retryGo
    by_cases heq : i = attempt
    · subst heq
      rw [hok]
      simp [List.range'_succ]
    · obtain ⟨e, he, hab⟩ := hfail attempt (Nat.le_refl _) (by omega)
      rw [he]
      simp only [hab, Bool.false_eq_true, if_false]
      rw [ih (attempt + 1) i a (some e) (by omega) (by omega)
        (fun j hj1 hj2 => hfail j (by omega) hj2) hok]
      have : i - attempt = (i - (attempt + 1)) + 1 := by omega
      simp [this, List.range'_succ]

/-- The retry loop re-raises immediately on an aborting failure. -/
theorem retryGo_abort {E A : Type} (ops : Nat → Except E A) (abort : E → Bool) :
    ∀ (rem attempt i : Nat) (e : E) (lastErr : Option E),
      attempt ≤ i → i < attempt + rem →
      (∀ j, attempt ≤ j → j < i → ∃ e', ops j = Except.error e' ∧ abort e' = false) →
      ops i = Except.error e → abort e = true →
      retryGo ops abort attempt rem lastErr
        = (List.range' attempt (i - attempt + 1), Except.error (some e)) := by
  intro rem
  induction rem with
  | zero => intro attempt i e lastErr h1 h2 _ _ _; omega
  | succ rem ih =>
    intro attempt i e lastErr h1 h2 hfail herr hab
    unfold retryGo
    by_cases heq : i = attempt
    · subst heq
      rw [herr]
      simp [hab, List.range'_succ]
    · obtain ⟨e', he', hab'⟩ := hfail attempt (Nat.le_refl _) (by omega)
      rw [he']
      simp only [hab', Bool.false_eq_true, if_false]
      rw [ih (attempt + 1) i e (some e') (by omega) (by omega)
        (fun j hj1 hj2 => hfail j (by omega) hj2) herr hab]
      have : i - attempt = (i - (attempt + 1)) + 1 := by omega
      simp [this, List.range'_succ]

/-- When every attempt fails without aborting, the retry loop raises the
last failure. -/
theorem retryGo_exhaust {E A : Type} (ops : Nat → Except E A) (abort : E → Bool) :
    ∀ (rem attempt : Nat) (e : E) (lastErr : Option E),
      1 ≤ rem →
      (∀ j, attempt ≤ j → j < attempt + rem →
        ∃ e', ops j = Except.error e' ∧ abort e' = false) →
      ops (attempt + rem - 1) = Except.error e →
      retryGo ops abort attempt rem lastErr
        = (List.range' attempt rem, Except.error (some e)) := by
  intro rem
  induction rem with
  | zero => intro attempt e lastErr h1 _ _; omega
  | succ rem ih =>
    intro attempt e lastErr _ hfail hlast
    obtain ⟨e0, he0, hab0⟩ := hfail attempt (Nat.le_refl _) (by omega)
    cases rem with
    | zero =>
      have hia : attempt + 1 - 1 = attempt := by omega
      rw [hia] at hlast
      have he : e0 = e := by
        rw [hlast] at he0
        injection he0 with h
        exact h.symm
      subst he
      unfold retryGo
      rw [he0]
      simp only [hab0, Bool.false_eq_true, if_false]
      rw [show retryGo ops abort (attempt + 1) 0 (some e0) = ([], Except.error (some e0))
        from rfl]
      simp [List.range'_succ]
    | succ rem' =>
      unfold retryGo
      rw [he0]
      simp only [hab0, Bool.false_eq_true, if_false]
      rw [ih (attempt + 1) e (some e0) (by omega)
        (fun j hj1 hj2 => hfail j (by omega) (by omega))
        (by rw [show attempt + 1 + (rem' + 1) - 1 = attempt + (rem' + 1 + 1) - 1 by omega]
            exact hlast)]
      simp [List.range'_succ]

/-- C9. `retry` invokes the operation at most `maxAttempts` times, at the
indices `0, 1, …` in order; a success returns immediately with its result;
an aborting failure re-raises immediately; and when every attempt fails the
last failure is raised. -/
theorem retry_spec {E A : Type} (ops : Nat → Except E A) (abort : E → Bool)
    (maxAttempts : Nat) :
    (∃ k, k ≤ maxAttempts ∧ (retryModel ops abort maxAttempts).1 = List.range k) ∧
    (∀ i a, i < maxAttempts →
      (∀ j, j < i → ∃ e, ops j = Except.error e ∧ abort e = false) →
      ops i = Except.ok a →
      retryModel ops abort maxAttempts = (List.range (i + 1), Except.ok a)) ∧
    (∀ i e, i < maxAttempts →
      (∀ j, j < i → ∃ e', ops j = Except.error e' ∧ abort e' = false) →
      ops i = Except.error e → abort e = true →
      retryModel ops abort maxAttempts = (List.range (i + 1), Except.error (some e))) ∧
    (∀ e, 1 ≤ maxAttempts →
      (∀ j, j < maxAttempts → ∃ e', ops j = Except.error e' ∧ abort e' = false) →
      ops (maxAttempts - 1) = Except.error e →
      retryModel ops abort maxAttempts
        = (List.range maxAttempts, Except.error (some e))) := by
  refine ⟨?_, ?_, ?_, ?_⟩
  · obtain ⟨k, hk, htr⟩ := retryGo_trace ops abort maxAttempts 0 none
    exact ⟨k, hk, by rw [retryModel, htr, List.range_eq_range']⟩
  · intro i a hi hfail hok
    have h := retryGo_success ops abort maxAttempts 0 i a none (Nat.zero_le i)
      (by omega) (fun j _ hj => hfail j hj) hok
    rw [retryModel, h, List.range_eq_range']
    simp
  · intro i e hi hfail herr hab
    have h := retryGo_abort ops abort maxAttempts 0 i e none (Nat.zero_le i)
      (by omega) (fun j _ hj => hfail j hj) herr hab
    rw [retryModel, h, List.range_eq_range']
    simp
  · intro e h1 hfail hlast
    have h := retryGo_exhaust ops abort maxAttempts 0 e none h1
      (fun j _ hj => hfail j (by omega)) (by
        rw [show 0 + maxAttempts - 1 = maxAttempts - 1 by omega]
        exact hlast)
    rw [retryModel, h, List.range_eq_range']

/-- A concrete operation failing once, then succeeding. -/
def c9ops : Nat → Except String Nat :=
  fun i => if i = 0 then Except.error "transient" else Except.ok 42

/-- A concrete non-aborting predicate. -/
def c9abort : String → Bool := fun _ => false

/-- The hypotheses of the retry specification hold at a concrete operation
script, which then retries once and returns the success. -/
theorem retry_spec_witness :
    (1 : Nat) < 3 ∧
      (∀ j, j < 1 → ∃ e, c9ops j = Except.error e ∧ c9abort e = false) ∧
      c9ops 1 = Except.ok 42 ∧
      retryModel c9ops c9abort 3 = (List.range 2, Except.ok 42) := by
  have h1 : (1 : Nat) < 3 := by decide
  have h2 : ∀ j, j < 1 → ∃ e, c9ops j = Except.error e ∧ c9abort e = false := by
    intro j hj
    have hj0 : j = 0 := by omega
    subst hj0
    exact ⟨"transient", rfl, rfl⟩
  have h3 : c9ops 1 = Except.ok 42 := rfl
  exact ⟨h1, h2, h3, (retry_spec c9ops c9abort 3).2.1 1 42 h1 h2 h3⟩

/-! ## Persistence round-trip -/

/-- Decoding inverts encoding pointwise over a list. -/
theorem optionMapM_enc {α β : Type} {enc : α → β} {dec : β → Option α}
    (h : ∀ a, dec (enc a) = some a) : ∀ (l : List α), (l.map enc).mapM dec = some l := by
  intro l
  induction l with
  | nil => rfl
  | cons a l ih =>
    rw [List.map_cons, optionMapM_cons, h a, ih]
    rfl

/-- Phase codec round-trip. -/
theorem phase_roundtrip (ph : ProjectPhase) : strToPhase (phaseToStr ph) = some ph := by
  cases ph <;> rfl

/-- Sub-status codec round-trip. -/
theorem subStatus_roundtrip (s : SubStatus) : strToSubStatus (subStatusToStr s) = some s := by
  cases s <;> rfl

/-- Task status codec round-trip. -/
theorem taskStatus_roundtrip (s : TaskStatus) :
    strToTaskStatus (taskStatusToStr s) = some s := by
  cases s <;> rfl

/-- Complexity codec round-trip. -/
theorem complexity_roundtrip (c : Complexity) :
    strToComplexity (complexityToStr c) = some c := by
  cases c <;> rfl

/-- Nullable-string codec round-trip. -/
theorem optStr_roundtrip (o : Option String) : jsonToOptStr (optStrToJson o) = some o := by
  cases o <;> rfl

/-- Timestamp codec round-trip. -/
theorem nat_roundtrip (n : Nat) : jsonToNat (natToJson n) = some n := by
  simp [natToJson, jsonToNat]

/-- Nullable-timestamp codec round-trip. -/
theorem optNat_roundtrip (o : Option Nat) : jsonToOptNat (optNatToJson o) = some o := by
  cases o with
  | none => rfl
  | some n =>
    calc jsonToOptNat (optNatToJson (some n)) = (jsonToNat (natToJson n)).map some := rfl
      _ = some (some n) := by rw [nat_roundtrip]; rfl

/-- String field codec round-trip. -/
theorem jsonStr_roundtrip (s : String) : jsonToStr (Json.str s) = some s := rfl

/-- Task node codec round-trip. -/
theorem taskNode_roundtrip (t : TaskNode) : taskNodeFromJson (taskNodeToJson t) = some t := by
  obtain ⟨id, title, de, fs, ds, cx⟩ := t
  simp only [taskNodeToJson, taskNodeFromJson]
  rw [optionMapM_enc jsonStr_roundtrip fs, optionMapM_enc jsonStr_roundtrip ds]
  simp [complexity_roundtrip]

/-- Plan codec round-trip. -/
theorem plan_roundtrip (p : Plan) : planFromJson (planToJson p) = some p := by
  obtain ⟨s, ts⟩ := p
  simp only [planToJson, planFromJson]
  rw [optionMapM_enc taskNode_roundtrip ts]
  rfl

/-- Planning sub-state codec round-trip. -/
theorem planning_roundtrip (p : PlanningState) :
    planningFromJson (planningToJson p) = some p := by
  obtain ⟨sid, m, st, err⟩ := p
  cases err with
  | none =>
    simp only [planningToJson, planningFromJson]
    simp [optStr_roundtrip, subStatus_roundtrip]
  | some e =>
    simp only [planningToJson, planningFromJson]
    simp [optStr_roundtrip, subStatus_roundtrip]

/-- Integration sub-state codec round-trip. -/
theorem integration_roundtrip (p : IntegrationState) :
    integrationFromJson (integrationToJson p) = some p := by
  obtain ⟨sid, st, mb, pu, err⟩ := p
  cases err with
  | none =>
    simp only [integrationToJson, integrationFromJson]
    simp [optStr_roundtrip, subStatus_roundtrip]
  | some e =>
    simp only [integrationToJson, integrationFromJson]
    simp [optStr_roundtrip, subStatus_roundtrip]

/-- Task execution codec round-trip. -/
theorem taskExecution_roundtrip (t : TaskExecution) :
    taskExecutionFromJson (taskExecutionToJson t) = some t := by
  obtain ⟨tid, st, sid, bn, sa, ca, su, er, rc⟩ := t
  simp only [taskExecutionToJson, taskExecutionFromJson]
  simp [taskStatus_roundtrip, optStr_roundtrip, optNat_roundtrip, nat_roundtrip]

/-- Plan codec round-trip, stated on the encoded object shape. -/
theorem plan_roundtrip' (s : String) (ts : List TaskNode) :
    planFromJson (Json.obj [("summary", Json.str s),
      ("tasks", Json.arr (ts.map taskNodeToJson))]) = some ⟨s, ts⟩ := by
  simp only [planFromJson]
  rw [optionMapM_enc taskNode_roundtrip ts]
  rfl

/-- Nullable plan codec round-trip. -/
theorem optPlan_roundtrip (o : Option Plan) : jsonToOptPlan (optPlanToJson o) = some o := by
  cases o with
  | none => rfl
  | some pln =>
    obtain ⟨s, ts⟩ := pln
    calc jsonToOptPlan (optPlanToJson (some ⟨s, ts⟩))
        = (planFromJson (Json.obj [("summary", Json.str s),
            ("tasks", Json.arr (ts.map taskNodeToJson))])).map some := rfl
      _ = some (some ⟨s, ts⟩) := by rw [plan_roundtrip']; rfl

/-- Whole-project codec round-trip: loading what was stored reproduces every
field, including the nested tasks map and sub-states. -/
theorem project_roundtrip (p : ProjectState) :
    projectFromJson (projectToJson p) = some p := by
  obtain ⟨id, ca, ua, goal, ro, rn, ph, pl, plan, tasks, ig⟩ := p
  have htasks : (tasks.map (fun kv => (kv.1, taskExecutionToJson kv.2))).mapM
      (fun kv => (taskExecutionFromJson kv.2).map (fun v => (kv.1, v))) = some tasks := by
    refine optionMapM_enc (fun kv => ?_) tasks
    show (taskExecutionFromJson (taskExecutionToJson kv.2)).map (fun v => (kv.1, v))
      = some kv
    rw [taskExecution_roundtrip]
    rfl
  have hred : projectFromJson (projectToJson
      (⟨id, ca, ua, goal, ro, rn, ph, pl, plan, tasks, ig⟩ : ProjectState)) = (do
      let createdAt ← jsonToNat (natToJson ca)
      let updatedAt ← jsonToNat (natToJson ua)
      let phase ← strToPhase (phaseToStr ph)
      let planning ← planningFromJson (planningToJson pl)
      let planVal ← jsonToOptPlan (optPlanToJson plan)
      let tasks' ← (tasks.map (fun kv => (kv.1, taskExecutionToJson kv.2))).mapM
          (fun kv => (taskExecutionFromJson kv.2).map (fun v => (kv.1, v)))
      let integration ← integrationFromJson (integrationToJson ig)
      some (⟨id, createdAt, updatedAt, goal, ro, rn, phase, planning, planVal, tasks',
        integration⟩ : ProjectState)) := rfl
  rw [hred]
  simp only [nat_roundtrip, phase_roundtrip, planning_roundtrip, optPlan_roundtrip,
    htasks, integration_roundtrip, Option.some_bind]
  rfl

/-- C8. Loading a project after saving it reproduces the saved state field
for field (the saved state being the input stamped with the save-time
`updatedAt`), and across consecutive saves under a non-decreasing clock the
stored `updatedAt` is non-decreasing. -/
theorem saveProject_load_roundtrip (fs : List (String × Json)) (p : ProjectState)
    (now : Nat) (q : ProjectState) (now' : Nat) (hmono : now ≤ now') :
    loadProjectFS (saveProjectFS fs now p).1 p.id = some { p with updatedAt := now } ∧
      (saveProjectFS fs now p).2 = { p with updatedAt := now } ∧
      ((saveProjectFS (saveProjectFS fs now p).1 now' q).2).updatedAt
        ≥ ((saveProjectFS fs now p).2).updatedAt := by
  refine ⟨?_, rfl, ?_⟩
  · unfold loadProjectFS saveProjectFS
    have hget : alistGet
        ((projectFile p.id, projectToJson { p with updatedAt := now }) :: fs)
        (projectFile p.id) = some (projectToJson { p with updatedAt := now }) := by
      unfold alistGet
      simp [List.find?_cons]
    simp only [hget]
    exact project_roundtrip _
  · show ({ q with updatedAt := now' } : ProjectState).updatedAt
      ≥ ({ p with updatedAt := now } : ProjectState).updatedAt
    exact hmono

/-- Concrete state exercising the store round-trip, with a nontrivial task
map, plan and sub-states. -/
def c8State : ProjectState :=
  { id := "p2", createdAt := 3, updatedAt := 4, goal := "demo round trip",
    repoOwner := "acme", repoName := "widget", phase := ProjectPhase.planning,
    planning := ⟨some "s9", "keep going", SubStatus.running, none⟩,
    plan := some ⟨"two steps", [⟨"a", "A", "first", ["src/a"], [], Complexity.small⟩]⟩,
    tasks := [("a", ⟨"a", TaskStatus.running, some "s1", some "oi/a", some 1, none,
      none, none, 2⟩)],
    integration := ⟨none, SubStatus.pending, none, none, none⟩ }

/-- The hypotheses of the store round-trip hold at a concrete state and
clock pair, where load then reproduces the stamped state. -/
theorem saveProject_load_roundtrip_witness :
    (5 : Nat) ≤ 7 ∧
      loadProjectFS (saveProjectFS [] 5 c8State).1 c8State.id
        = some { c8State with updatedAt := 5 } := by
  have h : (5 : Nat) ≤ 7 := by decide
  exact ⟨h, (saveProject_load_roundtrip [] c8State 5 c8State 7 h).1⟩

/-! ## Extractor priority -/

/-- The anchored fence attempt fails off a backtick. -/
theorem tryFenceAt_not_btick : ∀ (c : Char) (s : List Char), c ≠ btick →
    tryFenceAt (c :: s) = none := by
  intro c s hc
  cases s with
  | nil => rfl
  | cons c2 s2 =>
    cases s2 with
    | nil => rfl
    | cons c3 s3 =>
      simp only [tryFenceAt]
      rw [if_neg (fun h => hc h.1)]

/-- The leftmost fence search skips a backtick-free prefix. -/
theorem firstFence_skip {pre : List Char} (h : btick ∉ pre) (t : List Char) :
    firstFence (pre ++ t) = firstFence t := by
  induction pre with
  | nil => rfl
  | cons c pre ih =>
    rw [List.cons_append]
    show (tryFenceAt (c :: (pre ++ t))).orElse (fun _ => firstFence (pre ++ t))
      = firstFence t
    rw [tryFenceAt_not_btick c _ (fun hc => h (hc ▸ List.mem_cons_self _ _)),
      ih (fun hm => h (List.mem_cons_of_mem _ hm))]
    rfl

/-- Prepending a non-backtick prepends to the capture. -/
theorem fenceClose_cons_ne {c : Char} (T : List Char) (hc : c ≠ btick) :
    fenceClose (c :: T) = (fenceClose T).map (fun x => c :: x) := by
  cases T with
  | nil => simp [fenceClose, hc]
  | cons d r =>
    simp only [fenceClose]
    rw [if_neg hc]

/-- The lazy close search captures a backtick-free run. -/
theorem fenceClose_capture : ∀ (u rest : List Char), btick ∉ u →
    fenceClose (u ++ btick :: btick :: btick :: rest) = some u := by
  intro u
  induction u with
  | nil =>
    intro rest _
    simp [fenceClose]
  | cons c u ih =>
    intro rest h
    have hc : c ≠ btick := fun hc => h (hc ▸ List.mem_cons_self _ _)
    rw [List.cons_append, fenceClose_cons_ne _ hc,
      ih rest (fun hm => h (List.mem_cons_of_mem _ hm))]
    rfl

/-- The anchored fence attempt on an untagged newline fence captures the
fence body (whitespace-trimmed on the left). -/
theorem tryFenceAt_fence (c1 rest : List Char) (h : btick ∉ c1) :
    tryFenceAt (btick :: btick :: btick :: '\n' :: (c1 ++ btick :: btick :: btick :: rest))
      = some (c1.dropWhile isJsSpace) := by
  have hj : (['j', 's', 'o', 'n'].isPrefixOf
      ('\n' :: (c1 ++ btick :: btick :: btick :: rest))) = false := rfl
  have hdw : ('\n' :: (c1 ++ btick :: btick :: btick :: rest)).dropWhile isJsSpace
      = c1.dropWhile isJsSpace ++ btick :: btick :: btick :: rest := by
    rw [List.dropWhile_cons, if_pos (by decide : isJsSpace '\n' = true),
      List.dropWhile_append]
    by_cases he : (c1.dropWhile isJsSpace).isEmpty
    · rw [if_pos he]
      have hnil : c1.dropWhile isJsSpace = [] := by simpa [List.isEmpty_iff] using he
      rw [hnil]
      rw [List.dropWhile_cons, if_neg (by decide : ¬isJsSpace btick = true)]
      rfl
    · rw [if_neg he]
  have hnb : btick ∉ c1.dropWhile isJsSpace :=
    fun hm => h ((List.dropWhile_sublist _).subset hm)
  simp only [tryFenceAt]
  rw [if_pos (by decide), hj]
  simp only [Bool.false_eq_true, if_false]
  rw [hdw]
  exact fenceClose_capture _ rest hnb

/-- C5 amended. `extractJson` returns the parse of the first fence capture
regardless of the fence's language tag (so an earlier untagged fence whose
content parses wins over any later ```json fence), before falling back to
balanced-brace extraction. -/
theorem extractJson_priority_spec :
    (∀ (s cap : List Char) (v : Json), firstFence s = some cap →
      parseJsonL (trimJs cap) = some v → extractJsonL s = some v) ∧
    (∀ (pre c1 rest : List Char) (v : Json), btick ∉ pre → btick ∉ c1 →
      parseJsonL (trimJs c1) = some v →
      extractJsonL (pre ++ btick :: btick :: btick :: '\n' ::
        (c1 ++ btick :: btick :: btick :: rest)) = some v) := by
  have hA : ∀ (s cap : List Char) (v : Json), firstFence s = some cap →
      parseJsonL (trimJs cap) = some v → extractJsonL s = some v := by
    intro s cap v h1 h2
    unfold extractJsonL
    rw [h1]
    simp only [Option.some_bind, h2]
  refine ⟨hA, ?_⟩
  intro pre c1 rest v hp hc1 hv
  have hff : firstFence (pre ++ btick :: btick :: btick :: '\n' ::
      (c1 ++ btick :: btick :: btick :: rest)) = some (c1.dropWhile isJsSpace) := by
    rw [firstFence_skip hp]
    show (tryFenceAt (btick :: btick :: btick :: '\n' ::
        (c1 ++ btick :: btick :: btick :: rest))).orElse
      (fun _ => firstFence (btick :: btick :: '\n' ::
        (c1 ++ btick :: btick :: btick :: rest))) = _
    rw [tryFenceAt_fence c1 rest hc1]
    rfl
  have htr : trimJs (c1.dropWhile isJsSpace) = trimJs c1 := by
    unfold trimJs
    rw [List.dropWhile_idempotent]
  exact hA _ _ v hff (by rw [htr]; exact hv)

/-- C5 counterexample. On input holding an untagged fence whose body is the
JSON literal `true` followed by a ```json fence holding an object, extractJson
returns the first fence's value, not the ```json fence's object: the regex has
no preference for tagged fences, it takes the leftmost fence of either kind. -/
theorem extractJson_priority_counterexample :
    extractJson "First:\n```\ntrue\n```\nthen:\n```json\n\x7b\"a\": 1\x7d\n```"
        = some (Json.bool true) ∧
    parseJson "\x7b\"a\": 1\x7d" = some (Json.obj [("a", Json.num 1)]) ∧
    Json.bool true ≠ Json.obj [("a", Json.num 1)] :=
  ⟨rfl, rfl, fun h => Json.noConfusion h⟩

/-- Witness for the C5 amended theorem: an untagged backtick-free first fence
holding `true` wins over anything that follows, here a ```json object fence. -/
theorem extractJson_priority_spec_witness :
    extractJsonL (("First:\n".toList) ++ btick :: btick :: btick :: '\n' ::
      ("true\n".toList ++ btick :: btick :: btick ::
        ("\nthen:\n```json\n\x7b\"a\": 1\x7d\n```".toList)))
      = some (Json.bool true) :=
  extractJson_priority_spec.2 "First:\n".toList "true\n".toList
    ("\nthen:\n```json\n\x7b\"a\": 1\x7d\n```".toList) (Json.bool true)
    (by decide) (by decide) (by rfl)

/-! ## Correctness of the depth-first topological sort -/

/-- Closure of an emission list: each emitted task's direct dependencies all
appear among the ids of the tasks emitted strictly before it. This is exactly
the shape in which `result.push(task)` grows the output. -/
inductive TopoClosed : List TaskNode → Prop
  | nil : TopoClosed []
  | snoc (res : List TaskNode) (t : TaskNode) : TopoClosed res →
      (∀ d ∈ t.dependsOn, d ∈ res.map (fun u => u.id)) → TopoClosed (res ++ [t])

/-- Invariant of the `visit` recursion, relative to the set `G` of ids gray
on the call stack: visited = emitted ∪ gray, emitted ids are duplicate-free
listed tasks none of which is still gray, and the emission list is closed. -/
def TopoInv (tasks : List TaskNode) (G : List String) (st : TopoState) : Prop :=
  (∀ x, x ∈ st.visited ↔ x ∈ st.result.map (fun u => u.id) ∨ x ∈ G) ∧
  (st.result.map (fun u => u.id)).Nodup ∧
  (∀ t ∈ st.result, t ∈ tasks) ∧
  (∀ x ∈ G, x ∉ st.result.map (fun u => u.id)) ∧
  TopoClosed st.result

/-- Membership in a prefix, phrased through positions of the whole list. -/
theorem mem_take_iff_index {α : Type} (l : List α) (i : Nat) (u : α) :
    u ∈ l.take i ↔ ∃ k, ∃ (hk : k < l.length), k < i ∧ l.get ⟨k, hk⟩ = u := by
  constructor
  · intro hu
    obtain ⟨k, hk, he⟩ := List.mem_iff_getElem.mp hu
    have hlen : (l.take i).length = min i l.length := by simp
    have hklen : k < l.length := by omega
    have hki : k < i := by omega
    refine ⟨k, hklen, hki, ?_⟩
    rw [List.getElem_take] at he
    rw [List.get_eq_getElem]
    exact he
  · rintro ⟨k, hk, hki, rfl⟩
    apply List.mem_iff_getElem.mpr
    have hlen : (l.take i).length = min i l.length := by simp
    refine ⟨k, by omega, ?_⟩
    rw [List.getElem_take, List.get_eq_getElem]

/-- In a closed emission list, every direct dependency of the task at
position `i` is the id of a task in the strict prefix before `i`. -/
theorem topoClosed_get {res : List TaskNode} (hcl : TopoClosed res) :
    ∀ (i : Nat) (hi : i < res.length), ∀ d ∈ (res.get ⟨i, hi⟩).dependsOn,
      ∃ u ∈ res.take i, u.id = d := by
  induction hcl with
  | nil => intro i hi; exact absurd hi (by simp)
  | snoc res t hres hdeps ihres =>
    intro i hi d hd
    by_cases hlt : i < res.length
    · have hget : (res ++ [t]).get ⟨i, hi⟩ = res.get ⟨i, hlt⟩ := by
        simp [List.get_eq_getElem, List.getElem_append_left hlt]
      obtain ⟨u, hu, hud⟩ := ihres i hlt d (hget ▸ hd)
      have htake : (res ++ [t]).take i = res.take i := by
        rw [List.take_append_eq_append_take, Nat.sub_eq_zero_of_le hlt.le]
        simp
      exact ⟨u, by rw [htake]; exact hu, hud⟩
    · have hlen : i = res.length := by
        have : i < res.length + 1 := by simpa using hi
        omega
      subst hlen
      have hget : (res ++ [t]).get ⟨res.length, hi⟩ = t := by
        simp [List.get_eq_getElem]
      rw [hget] at hd
      obtain ⟨u, hu, hud⟩ := List.mem_map.mp (hdeps d hd)
      have htake : (res ++ [t]).take res.length = res := List.take_left res [t]
      exact ⟨u, by rw [htake]; exact hu, hud⟩

/-- In a closed emission list of listed tasks with globally unique ids, every
TRANSITIVE dependency of the task at position `i` also sits in the strict
prefix before `i`. -/
theorem topoClosed_transitive {tasks res : List TaskNode} (hU : UniqueIds tasks)
    (hsub : ∀ u ∈ res, u ∈ tasks) (hcl : TopoClosed res) :
    ∀ (i : Nat) (hi : i < res.length) (b : String),
      Relation.TransGen (depEdge tasks) (res.get ⟨i, hi⟩).id b →
      ∃ u ∈ res.take i, u.id = b := by
  intro i
  induction i using Nat.strong_induction_on with
  | _ i IH =>
    intro hi b htg
    have hdirect : ∀ c, depEdge tasks (res.get ⟨i, hi⟩).id c →
        ∃ u ∈ res.take i, u.id = c := by
      intro c hedge
      obtain ⟨t', ht', hid', hc'⟩ := hedge
      have hmemi : res.get ⟨i, hi⟩ ∈ res := res.get_mem i hi
      have heq : t' = res.get ⟨i, hi⟩ :=
        mem_unique_by_id hU ht' (hsub _ hmemi) hid'
      exact topoClosed_get hcl i hi c (heq ▸ hc')
    obtain ⟨c, hac, hcb⟩ := Relation.TransGen.head'_iff.mp htg
    obtain ⟨u, hu, huc⟩ := hdirect c hac
    rcases Relation.reflTransGen_iff_eq_or_transGen.mp hcb with rfl | htg'
    · exact ⟨u, hu, huc⟩
    · obtain ⟨j, hj, hji, hju⟩ := (mem_take_iff_index res i u).mp hu
      have hjid : (res.get ⟨j, hj⟩).id = c := by rw [hju, huc]
      obtain ⟨w, hw, hwb⟩ := IH j hji hj b (by rw [hjid]; exact htg')
      obtain ⟨k, hk, hkj, hkw⟩ := (mem_take_iff_index res j w).mp hw
      exact ⟨w, (mem_take_iff_index res i w).mpr ⟨k, hk, by omega, hkw⟩, hwb⟩

/-- `foldlM` over `Option`, empty list. -/
theorem optionFoldlM_nil {α β : Type} (f : β → α → Option β) (b : β) :
    ([] : List α).foldlM f b = some b := by
  simp [List.foldlM_nil]

/-- `foldlM` over `Option`, cons step. -/
theorem optionFoldlM_cons {α β : Type} (f : β → α → Option β) (a : α) (l : List α) (b : β) :
    (a :: l).foldlM f b = (f b a).bind (fun x => l.foldlM f x) := by
  simp [List.foldlM_cons]

/-- Full specification of one call of the `visit` recursion: with enough fuel
(fuel + grays ≥ N + 2), on a resolvable acyclic unique-id graph, the call
succeeds, preserves the invariant, grows the visited set monotonically, and
leaves the requested id visited. -/
theorem visitF_spec (tasks : List TaskNode) (hU : UniqueIds tasks)
    (hR : Resolvable tasks) (hC : NoDepCycle tasks) :
    ∀ (fuel : Nat) (id : String) (G : List String) (st : TopoState),
      TopoInv tasks G st →
      G.Nodup →
      (∀ g ∈ G, g ∈ tasks.map (fun u => u.id)) →
      (∀ g ∈ G, Relation.ReflTransGen (depEdge tasks) g id) →
      id ∈ tasks.map (fun u => u.id) →
      tasks.length + 2 ≤ fuel + G.length →
      ∃ st', visitF (alistOf (tasks.map (fun t => (t.id, t)))) fuel id st = some st' ∧
        TopoInv tasks G st' ∧ (∀ x ∈ st.visited, x ∈ st'.visited) ∧ id ∈ st'.visited := by
  intro fuel
  induction fuel with
  | zero =>
    intro id G st _ hGnd hGids _ _ hbudget
    exfalso
    have hlen : G.length ≤ (tasks.map (fun u => u.id)).length :=
      (List.subperm_of_subset hGnd (fun g hg => hGids g hg)).length_le
    rw [List.length_map] at hlen
    omega
  | succ fuel ih =>
    intro id G st hInv hGnd hGids hGreach hid hbudget
    by_cases hv : st.visited.contains id = true
    · refine ⟨st, ?_, hInv, fun x hx => hx, List.elem_iff.mp hv⟩
      simp only [visitF]
      rw [if_pos hv]
    · have hvm : id ∉ st.visited := fun hm => hv (List.elem_iff.mpr hm)
      obtain ⟨hIff, hNd, hSub, hGray, hClosed⟩ := hInv
      have hsome := @taskMapGet_isSome tasks id hid
      cases hget : alistGet (alistOf (tasks.map (fun t => (t.id, t)))) id with
      | none => rw [hget] at hsome; simp at hsome
      | some t =>
      obtain ⟨htmem, htid⟩ := taskMapGet_some hget
      have hidG : id ∉ G := fun h => hvm ((hIff id).mpr (Or.inr h))
      have hidRes : id ∉ st.result.map (fun u => u.id) :=
        fun h => hvm ((hIff id).mpr (Or.inl h))
      have hInv1 : TopoInv tasks (id :: G) ⟨id :: st.visited, st.result⟩ := by
        refine ⟨?_, hNd, hSub, ?_, hClosed⟩
        · intro x
          show x ∈ id :: st.visited ↔ _
          simp only [List.mem_cons]
          constructor
          · rintro (rfl | hx)
            · exact Or.inr (Or.inl rfl)
            · rcases (hIff x).mp hx with h | h
              · exact Or.inl h
              · exact Or.inr (Or.inr h)
          · rintro (hx | rfl | hx)
            · exact Or.inr ((hIff x).mpr (Or.inl hx))
            · exact Or.inl rfl
            · exact Or.inr ((hIff x).mpr (Or.inr hx))
        · intro x hx
          rcases List.mem_cons.mp hx with rfl | hx
          · exact hidRes
          · exact hGray x hx
      have hG'nd : (id :: G).Nodup := List.nodup_cons.mpr ⟨hidG, hGnd⟩
      have hG'ids : ∀ g ∈ id :: G, g ∈ tasks.map (fun u => u.id) := by
        intro g hg
        rcases List.mem_cons.mp hg with rfl | hg
        · exact hid
        · exact hGids g hg
      have hEdge : ∀ d ∈ t.dependsOn, depEdge tasks id d :=
        fun d hd => ⟨t, htmem, htid, hd⟩
      have hG'reach : ∀ d ∈ t.dependsOn, ∀ g ∈ id :: G,
          Relation.ReflTransGen (depEdge tasks) g d := by
        intro d hd g hg
        rcases List.mem_cons.mp hg with rfl | hg
        · exact Relation.ReflTransGen.single (hEdge d hd)
        · exact (hGreach g hg).tail (hEdge d hd)
      have hbudget' : tasks.length + 2 ≤ fuel + (id :: G).length := by
        simp only [List.length_cons]
        omega
      have hfold : ∀ (ds : List String), (∀ d ∈ ds, d ∈ t.dependsOn) →
          ∀ (s : TopoState), TopoInv tasks (id :: G) s →
          ∃ s2, ds.foldlM (fun s d =>
              visitF (alistOf (tasks.map (fun t => (t.id, t)))) fuel d s) s = some s2 ∧
            TopoInv tasks (id :: G) s2 ∧ (∀ x ∈ s.visited, x ∈ s2.visited) ∧
            (∀ d ∈ ds, d ∈ s2.visited) := by
        intro ds
        induction ds with
        | nil =>
          intro _ s hs
          exact ⟨s, optionFoldlM_nil _ _, hs, fun _ h => h, by simp⟩
        | cons d ds ihds =>
          intro hsubd s hs
          obtain ⟨s1, hs1run, hs1Inv, hs1mono, hs1d⟩ :=
            ih d (id :: G) s hs hG'nd hG'ids
              (hG'reach d (hsubd d (List.mem_cons_self _ _)))
              (hR t htmem d (hsubd d (List.mem_cons_self _ _))) hbudget'
          obtain ⟨s2, hs2run, hs2Inv, hs2mono, hs2all⟩ :=
            ihds (fun x hx => hsubd x (List.mem_cons_of_mem _ hx)) s1 hs1Inv
          refine ⟨s2, ?_, hs2Inv, fun x hx => hs2mono x (hs1mono x hx), ?_⟩
          · rw [optionFoldlM_cons, hs1run, Option.some_bind, hs2run]
          · intro x hx
            rcases List.mem_cons.mp hx with rfl | hx
            · exact hs2mono x hs1d
            · exact hs2all x hx
      obtain ⟨st2, hrun2, hInv2, hmono2, hdeps2⟩ :=
        hfold t.dependsOn (fun _ h => h) ⟨id :: st.visited, st.result⟩ hInv1
      obtain ⟨hIff2, hNd2, hSub2, hGray2, hClosed2⟩ := hInv2
      have hDepRes : ∀ d ∈ t.dependsOn, d ∈ st2.result.map (fun u => u.id) := by
        intro d hd
        rcases (hIff2 d).mp (hdeps2 d hd) with h | h
        · exact h
        · rcases List.mem_cons.mp h with rfl | hg
          · exact absurd (Relation.TransGen.single (hEdge _ hd)) (hC _)
          · exact absurd (Relation.TransGen.tail' (hGreach d hg) (hEdge d hd)) (hC d)
      refine ⟨⟨st2.visited, st2.result ++ [t]⟩, ?_, ⟨?_, ?_, ?_, ?_, ?_⟩, ?_, ?_⟩
      · have hstep : visitF (alistOf (tasks.map (fun t => (t.id, t)))) (fuel + 1) id st
            = (alistGet (alistOf (tasks.map (fun t => (t.id, t)))) id).bind (fun t =>
                (t.dependsOn.foldlM (fun s d =>
                    visitF (alistOf (tasks.map (fun t => (t.id, t)))) fuel d s)
                  (⟨id :: st.visited, st.result⟩ : TopoState)).bind (fun st2 =>
                    some ⟨st2.visited, st2.result ++ [t]⟩)) := by
          show (if st.visited.contains id then some st else _) = _
          rw [if_neg hv]
          rfl
        rw [hstep, hget]
        show (t.dependsOn.foldlM (fun s d =>
            visitF (alistOf (tasks.map (fun t => (t.id, t)))) fuel d s)
          (TopoState.mk (id :: st.visited) st.result)).bind (fun s2 =>
            some (TopoState.mk s2.visited (s2.result ++ [t]))) = _
        rw [hrun2]
        rfl
      · intro x
        show x ∈ st2.visited ↔ x ∈ (st2.result ++ [t]).map (fun u => u.id) ∨ x ∈ G
        rw [List.map_append]
        constructor
        · intro hx
          rcases (hIff2 x).mp hx with h | h
          · exact Or.inl (List.mem_append_left _ h)
          · rcases List.mem_cons.mp h with rfl | hg
            · exact Or.inl (List.mem_append_right _ (by simp [htid]))
            · exact Or.inr hg
        · intro hx
          rcases hx with h | h
          · rcases List.mem_append.mp h with h | h
            · exact (hIff2 x).mpr (Or.inl h)
            · have hxid : x = id := by simpa [htid] using h
              exact (hIff2 x).mpr (Or.inr (by rw [hxid]; exact List.mem_cons_self _ _))
          · exact (hIff2 x).mpr (Or.inr (List.mem_cons_of_mem _ h))
      · show ((st2.result ++ [t]).map (fun u => u.id)).Nodup
        rw [List.map_append]
        refine ((List.perm_append_singleton _ _).nodup_iff).mpr ?_
        refine List.nodup_cons.mpr ⟨?_, hNd2⟩
        show t.id ∉ st2.result.map (fun u => u.id)
        rw [htid]
        exact hGray2 id (List.mem_cons_self _ _)
      · intro u hu
        rcases List.mem_append.mp hu with h | h
        · exact hSub2 u h
        · have : u = t := by simpa using h
          rw [this]
          exact htmem
      · intro x hx
        show x ∉ (st2.result ++ [t]).map (fun u => u.id)
        rw [List.map_append]
        intro hmem
        rcases List.mem_append.mp hmem with h | h
        · exact hGray2 x (List.mem_cons_of_mem _ hx) h
        · have hxid : x = id := by simpa [htid] using h
          exact hidG (hxid ▸ hx)
      · exact TopoClosed.snoc st2.result t hClosed2 hDepRes
      · intro x hx
        exact hmono2 x (List.mem_cons_of_mem _ hx)
      · exact hmono2 id (List.mem_cons_self _ _)

/-- The outer `for (const task of tasks) visit(task.id)` loop: starting from
any invariant state with no grays, it succeeds, preserves the invariant and
visits every listed id. -/
theorem visitFold_spec (tasks : List TaskNode) (hU : UniqueIds tasks)
    (hR : Resolvable tasks) (hC : NoDepCycle tasks) :
    ∀ (ts : List TaskNode), (∀ u ∈ ts, u ∈ tasks) →
      ∀ (st : TopoState), TopoInv tasks [] st →
      ∃ st', ts.foldlM (fun s u => visitF (alistOf (tasks.map (fun t => (t.id, t))))
          (tasks.length + 2) u.id s) st = some st' ∧
        TopoInv tasks [] st' ∧ (∀ x ∈ st.visited, x ∈ st'.visited) ∧
        (∀ u ∈ ts, u.id ∈ st'.visited) := by
  intro ts
  induction ts with
  | nil =>
    intro _ st hst
    exact ⟨st, optionFoldlM_nil _ _, hst, fun _ h => h, by simp⟩
  | cons u ts ihts =>
    intro hsub st hst
    obtain ⟨s1, h1run, h1Inv, h1mono, h1id⟩ :=
      visitF_spec tasks hU hR hC (tasks.length + 2) u.id [] st hst List.nodup_nil
        (by simp) (by simp)
        (List.mem_map_of_mem _ (hsub u (List.mem_cons_self _ _))) (by simp)
    obtain ⟨s2, h2run, h2Inv, h2mono, h2all⟩ :=
      ihts (fun x hx => hsub x (List.mem_cons_of_mem _ hx)) s1 h1Inv
    refine ⟨s2, ?_, h2Inv, fun x hx => h2mono x (h1mono x hx), ?_⟩
    · rw [optionFoldlM_cons, h1run, Option.some_bind, h2run]
    · intro w hw
      rcases List.mem_cons.mp hw with rfl | hw
      · exact h2mono _ h1id
      · exact h2all w hw

/-- C7. On every task list with pairwise distinct ids, resolvable
dependencies and an acyclic dependency relation — whatever the input order —
`topologicalSort` succeeds and returns a permutation of the input (each task
exactly once) in which every task appears strictly after every task it
transitively depends on. -/
theorem topologicalSort_spec (tasks : List TaskNode)
    (hU : UniqueIds tasks) (hR : Resolvable tasks) (hC : NoDepCycle tasks) :
    ∃ res, topologicalSort tasks = some res ∧ res.Perm tasks ∧
      ∀ (i : Nat) (hi : i < res.length) (b : String),
        Relation.TransGen (depEdge tasks) (res.get ⟨i, hi⟩).id b →
        ∃ u ∈ res.take i, u.id = b := by
  have hInv0 : TopoInv tasks [] ⟨[], []⟩ :=
    ⟨by simp, by simp, by simp, by simp, TopoClosed.nil⟩
  obtain ⟨st', hrun, hInv', hmono', hall⟩ :=
    visitFold_spec tasks hU hR hC tasks (fun _ h => h) ⟨[], []⟩ hInv0
  obtain ⟨hIff', hNd', hSub', _, hClosed'⟩ := hInv'
  have hout : topologicalSort tasks = some st'.result := by
    show (tasks.foldlM (fun s t => visitF (alistOf (tasks.map (fun t => (t.id, t))))
        (tasks.length + 2) t.id s) (TopoState.mk [] [])).bind (fun st => some st.result) = _
    rw [hrun]
    rfl
  have hmemiff : ∀ u, u ∈ st'.result ↔ u ∈ tasks := by
    intro u
    constructor
    · exact hSub' u
    · intro hu
      have h2 : u.id ∈ st'.result.map (fun w => w.id) := by
        rcases (hIff' u.id).mp (hall u hu) with h | h
        · exact h
        · exact absurd h (List.not_mem_nil _)
      obtain ⟨w, hw, hwid⟩ := List.mem_map.mp h2
      have hwu : w = u := mem_unique_by_id hU (hSub' w hw) hu hwid
      exact hwu ▸ hw
  have hresNodup : st'.result.Nodup := hNd'.of_map _
  have htasksNodup : tasks.Nodup := List.Nodup.of_map _ hU
  have hperm : st'.result.Perm tasks :=
    List.perm_of_nodup_nodup_toFinset_eq hresNodup htasksNodup
      (Finset.ext fun u => by simp [List.mem_toFinset, hmemiff u])
  exact ⟨st'.result, hout, hperm, fun i hi b htg =>
    topoClosed_transitive hU hSub' hClosed' i hi b htg⟩

/-- Concrete three-task diamond-free DAG exercising the C7 theorem. -/
def c7Tasks : List TaskNode := [mkTask "c" ["a", "b"], mkTask "a" [], mkTask "b" ["a"]]

/-- Concrete rank function witnessing acyclicity of `c7Tasks`. -/
def c7Rank : String → Nat := fun id => if id = "c" then 2 else if id = "b" then 1 else 0

/-- Witness for C7 at a concrete graph given in dependency-last order. -/
theorem topologicalSort_spec_witness :
    UniqueIds c7Tasks ∧ Resolvable c7Tasks ∧ NoDepCycle c7Tasks ∧
    ∃ res, topologicalSort c7Tasks = some res ∧ res.Perm c7Tasks ∧
      ∀ (i : Nat) (hi : i < res.length) (b : String),
        Relation.TransGen (depEdge c7Tasks) (res.get ⟨i, hi⟩).id b →
        ∃ u ∈ res.take i, u.id = b := by
  have hU : UniqueIds c7Tasks := by unfold UniqueIds; decide
  have hR : Resolvable c7Tasks := by unfold Resolvable; decide
  have hC : NoDepCycle c7Tasks := noDepCycle_of_rank c7Tasks c7Rank (by decide)
  exact ⟨hU, hR, hC, topologicalSort_spec c7Tasks hU hR hC⟩
